import Mathlib

/-!
# gc2015: the Go pitfall examples of `examples.go`, embedded in Lean

Each example function of `examples.go` is translated into a definition over an
explicit model of the part of the Go runtime it exercises: a flat memory of
string cells for slices and arrays, interface values for `error`, byte strings
with the UTF-8 decoder of `range`, a defer stack, association-list maps, and an
interleaving step relation for goroutines, wait groups and channels.
Output written with `fmt.Println` is modelled as the list of printed lines.
-/

namespace Gc2015

/-! ## Embedding (`Foo`, `Bar`, `main`) -/

/-- The Go type `Foo struct{}`. -/
structure Foo where
  deriving DecidableEq, Repr

/-- The method `func (Foo) Val() string`. -/
def Foo.Val (_ : Foo) : String := "Goodbye."

/-- The Go type `Bar struct { Foo }`: the embedded member is the field `Foo`. -/
structure Bar where
  Foo : Gc2015.Foo
  deriving DecidableEq, Repr

/-- The method `func (Bar) Val() string`. -/
def Bar.Val (_ : Bar) : String := "Hello."

/-- The function `main`: the lines it prints, in order. -/
def main : List String :=
  let bar := Bar.mk Foo.mk
  [bar.Val, bar.Foo.Val]

/-! ## Memory model for slices and arrays -/

/-- The memory: a flat sequence of string cells, addressed by position. -/
abbrev Heap := List String

/-- A slice header: pointer to the first cell, length and capacity. -/
structure Slice where
  ptr : Nat
  len : Nat
  cap : Nat
  deriving DecidableEq, Repr

/-- An array variable of type `[1]string`: the address of its single cell. -/
structure Array1 where
  ptr : Nat
  deriving DecidableEq, Repr

/-- Allocation of fresh cells holding `xs` at the end of the memory. -/
def Heap.alloc (h : Heap) (xs : List String) : Heap × Nat :=
  (h ++ xs, h.length)

/-- The slice literal `[]string{...}`: fresh backing cells and a header on them. -/
def Heap.makeSlice (h : Heap) (xs : List String) : Heap × Slice :=
  let (h1, p) := h.alloc xs
  (h1, { ptr := p, len := xs.length, cap := xs.length })

/-- The elements a slice header denotes in a memory. -/
def Slice.elems (h : Heap) (s : Slice) : List String :=
  (h.drop s.ptr).take s.len

/-- The indexed assignment `t[i] = x` on a slice: a run-time panic when `i` is
not below the length, a write to the shared backing cell otherwise. -/
def Slice.assign (h : Heap) (t : Slice) (i : Nat) (x : String) : Except String Heap :=
  if i < t.len then Except.ok (h.set (t.ptr + i) x)
  else Except.error "index out of range"

/-- The elements of a `[1]string` array variable. -/
def Array1.elems (h : Heap) (a : Array1) : List String :=
  (h.drop a.ptr).take 1

/-- The indexed assignment `b[0] = x` on a `[1]string` array variable. -/
def Array1.assign0 (h : Heap) (b : Array1) (x : String) : Heap :=
  h.set (b.ptr + 0) x

/-- Passing a `[1]string` by value: the callee's parameter is a fresh array
variable whose cell holds a copy of the argument's element. -/
def Array1.passByValue (h : Heap) (a : Array1) : Heap × Array1 :=
  let (h1, p) := h.alloc (a.elems h)
  (h1, { ptr := p })

/-- The text `fmt.Println` writes for a `[]string` or `[1]string` value. -/
def fmtStrings (xs : List String) : String :=
  "[" ++ " ".intercalate xs ++ "]"

/-- What a run of one of the two slice/array examples leaves behind. -/
structure Observed where
  /-- the caller's elements after the call -/
  caller : List String
  /-- the callee's view of its parameter when it returns -/
  callee : List String
  /-- the line written by `fmt.Println` -/
  printed : String
  deriving DecidableEq, Repr

/-- The anonymous function of `SlicesAreNotArrays`: `func(t []string) { t[0] = "Equal Pay" }`. -/
def SlicesAreNotArrays.func1 (h : Heap) (t : Slice) : Except String Heap :=
  t.assign h 0 "Equal Pay"

/-- The body of `SlicesAreNotArrays` for an arbitrary slice literal `src`,
started in memory `h0`. -/
def SlicesAreNotArraysWith (h0 : Heap) (src : List String) : Except String Observed :=
  let (h1, s) := h0.makeSlice src
  -- the call copies the header `s` into the parameter `t`
  match SlicesAreNotArrays.func1 h1 s with
  | Except.error e => Except.error e
  | Except.ok h2 =>
    Except.ok { caller := s.elems h2, callee := s.elems h2, printed := fmtStrings (s.elems h2) }

/-- The function `SlicesAreNotArrays`. -/
def SlicesAreNotArrays : Except String Observed :=
  SlicesAreNotArraysWith [] ["Equal Work"]

/-- The anonymous function of `SlicesAreNotArrays2`: `func(b [1]string) { b[0] = "Equal Pay" }`. -/
def SlicesAreNotArrays2.func1 (h : Heap) (b : Array1) : Heap :=
  b.assign0 h "Equal Pay"

/-- The body of `SlicesAreNotArrays2` for an arbitrary initial element `x` of the
array `a`, started in memory `h0`. -/
def SlicesAreNotArrays2With (h0 : Heap) (x : String) : Observed :=
  let (h1, p) := h0.alloc [x]
  let a : Array1 := { ptr := p }
  let (h2, b) := a.passByValue h1
  let h3 := SlicesAreNotArrays2.func1 h2 b
  { caller := a.elems h3, callee := b.elems h3, printed := fmtStrings (a.elems h3) }

/-- The function `SlicesAreNotArrays2`. -/
def SlicesAreNotArrays2 : Observed :=
  SlicesAreNotArrays2With [] "Equal Work"

/-! ## Interface values (`TypedNils`) -/

/-- A value of the interface type `error`: either the nil interface, or a
dynamic type together with a pointer that may itself be nil. -/
inductive GoError where
  | nil : GoError
  | boxed (dynType : String) (ptr : Option Nat) : GoError
  deriving DecidableEq, Repr

/-- The comparison `err != nil` on an interface value. -/
def GoError.neNil : GoError → Bool
  | GoError.nil => false
  | GoError.boxed _ _ => true

/-- The package variable `var errOrNil error = nil`. -/
def errOrNil : GoError := GoError.nil

/-- The body of `TypedNils` for a given content of the package variable:
`Except.error e` stands for `panic(e)`. -/
def TypedNilsWith (errOrNilVar : GoError) : Except GoError Unit :=
  let checkError : Unit → GoError := fun _ => errOrNilVar
  let err := checkError ()
  if err.neNil then Except.error err else Except.ok ()

/-- The function `TypedNils`, run with the package variable as declared. -/
def TypedNils : Except GoError Unit :=
  TypedNilsWith errOrNil

/-! ## Strings and `range` over a string (`RangingOverStrings`) -/

/-- A Go string value: its sequence of bytes. -/
abbrev GoString := List Nat

/-- The rune `utf8.RuneError`, U+FFFD, produced for an invalid sequence. -/
def runeError : Nat := 0xFFFD

/-- The test for a UTF-8 continuation byte, `10xxxxxx`. -/
def isCont (b : Nat) : Bool := decide (0x80 ≤ b ∧ b ≤ 0xBF)

/-- The lowest second byte accepted after first byte `b0` (excludes over-long forms). -/
def secondLo (b0 : Nat) : Nat :=
  if b0 = 0xE0 then 0xA0 else if b0 = 0xF0 then 0x90 else 0x80

/-- The highest second byte accepted after first byte `b0` (excludes surrogates and
values above U+10FFFF). -/
def secondHi (b0 : Nat) : Nat :=
  if b0 = 0xED then 0x9F else if b0 = 0xF4 then 0x8F else 0xBF

/-- The decoding step of `range` over a string: the rune at the head of the bytes
and the number of bytes it takes; an invalid sequence gives `runeError` and
advances one byte. -/
def decodeRune : GoString → Nat × Nat
  | [] => (runeError, 0)
  | b0 :: rest =>
    if b0 < 0x80 then (b0, 1)
    else if 0xC2 ≤ b0 ∧ b0 ≤ 0xDF then
      match rest with
      | b1 :: _ =>
        if secondLo b0 ≤ b1 ∧ b1 ≤ secondHi b0 then (b0 % 32 * 64 + b1 % 64, 2)
        else (runeError, 1)
      | _ => (runeError, 1)
    else if 0xE0 ≤ b0 ∧ b0 ≤ 0xEF then
      match rest with
      | b1 :: b2 :: _ =>
        if secondLo b0 ≤ b1 ∧ b1 ≤ secondHi b0 ∧ isCont b2 = true then
          (b0 % 16 * 4096 + b1 % 64 * 64 + b2 % 64, 3)
        else (runeError, 1)
      | _ => (runeError, 1)
    else if 0xF0 ≤ b0 ∧ b0 ≤ 0xF4 then
      match rest with
      | b1 :: b2 :: b3 :: _ =>
        if secondLo b0 ≤ b1 ∧ b1 ≤ secondHi b0 ∧ isCont b2 = true ∧ isCont b3 = true then
          (b0 % 8 * 262144 + b1 % 64 * 4096 + b2 % 64 * 64 + b3 % 64, 4)
        else (runeError, 1)
      | _ => (runeError, 1)
    else (runeError, 1)

/-- The loop `for _, c := range s`: the runes bound to `c`, one per iteration.
Every iteration consumes at least one byte, so `fuel = len(s)` is enough. -/
def rangeString.loop : Nat → GoString → List Nat
  | 0, _ => []
  | _ + 1, [] => []
  | fuel + 1, b :: bs =>
    let (r, w) := decodeRune (b :: bs)
    r :: rangeString.loop fuel ((b :: bs).drop w)

/-- The sequence of runes a `range` over the string `s` yields. -/
def rangeString (s : GoString) : List Nat :=
  rangeString.loop s.length s

/-- The UTF-8 encoding of one code point. -/
def encodeRune (c : Nat) : GoString :=
  if c < 0x80 then [c]
  else if c < 0x800 then [0xC0 + c / 64, 0x80 + c % 64]
  else if c < 0x10000 then [0xE0 + c / 4096, 0x80 + c / 64 % 64, 0x80 + c % 64]
  else [0xF0 + c / 262144, 0x80 + c / 4096 % 64, 0x80 + c / 64 % 64, 0x80 + c % 64]

/-- The UTF-8 encoding of a sequence of code points: a valid UTF-8 string is the
encoding of a sequence of Unicode scalar values. -/
def encodeString (cs : List Nat) : GoString :=
  cs.flatMap encodeRune

/-- The Unicode scalar values: code points up to U+10FFFF outside the surrogates. -/
def isScalar (c : Nat) : Bool :=
  decide (c < 0xD800 ∨ (0xE000 ≤ c ∧ c < 0x110000))

/-- One call `fmt.Printf(format, args...)` with rune arguments. -/
structure PrintfCall where
  format : String
  args : List Nat
  deriving DecidableEq, Repr

/-- The string literal `"I ♥ NY"` of `RangingOverStrings`, as stored: 8 bytes,
the heart U+2665 taking the three bytes E2 99 A5. -/
def iLoveNY : GoString := [0x49, 0x20, 0xE2, 0x99, 0xA5, 0x20, 0x4E, 0x59]

/-- The body of `RangingOverStrings` for an arbitrary string: one
`fmt.Printf("%U, %q\n", c, c)` per iteration of the `range` loop. -/
def RangingOverStringsOn (s : GoString) : List PrintfCall :=
  (rangeString s).map (fun c => { format := "%U, %q\n", args := [c, c] })

/-- The function `RangingOverStrings`. -/
def RangingOverStrings : List PrintfCall :=
  RangingOverStringsOn iLoveNY

/-! ## Deferred calls (`LeakyDefers`) -/

/-- The Go type `someType struct{}`, instrumented with the serial number of the
`open` call that returned the value, so that releases can be told apart. -/
structure someType where
  serial : Nat
  deriving DecidableEq, Repr

/-- The instrumented run-time state of `LeakyDefers`. -/
structure DeferState where
  /-- the resources returned by `open()`, oldest first -/
  opened : List someType
  /-- the pending deferred `Close` calls of the function, most recent first -/
  deferred : List someType
  /-- the `Close` calls that have run, in the order they ran -/
  closed : List someType
  deriving DecidableEq, Repr

/-- The state on entry to `LeakyDefers`. -/
def DeferState.init : DeferState :=
  { opened := [], deferred := [], closed := [] }

/-- The function `open()`: returns a fresh `someType`. -/
def openResource (st : DeferState) : someType × DeferState :=
  let c : someType := { serial := st.opened.length }
  (c, { st with opened := st.opened ++ [c] })

/-- The method `func (someType) Close()`. -/
def someType.Close (c : someType) (st : DeferState) : DeferState :=
  { st with closed := st.closed ++ [c] }

/-- The statement `defer c.Close()`: pushes the call on the function's defer stack. -/
def deferClose (c : someType) (st : DeferState) : DeferState :=
  { st with deferred := c :: st.deferred }

/-- One iteration of the loop body of `LeakyDefers`: `c := open(); defer c.Close()`. -/
def LeakyDefers.body (st : DeferState) : DeferState :=
  let (c, st1) := openResource st
  deferClose c st1

/-- The loop of `LeakyDefers`, bounded to `n` iterations. -/
def LeakyDefers.loop : Nat → DeferState → DeferState
  | 0, st => st
  | n + 1, st => LeakyDefers.loop n (LeakyDefers.body st)

/-- Function return: the pending deferred calls run, last deferred first. -/
def runDeferred : List someType → DeferState → DeferState
  | [], st => { st with deferred := [] }
  | c :: rest, st => runDeferred rest (c.Close { st with deferred := rest })

/-- The function `LeakyDefers` with its loop bounded to `n` iterations, followed
by the return of the function. -/
def LeakyDefers (n : Nat) : DeferState :=
  let st := LeakyDefers.loop n DeferState.init
  runDeferred st.deferred st

/-! ## Maps and `range` over a map (`RangingOverMaps`) -/

/-- A `map[string]bool`: its entries, with pairwise distinct keys. -/
abbrev GoMap := List (String × Bool)

/-- Whether key `k` is present in the map. -/
def GoMap.contains (m : GoMap) (k : String) : Bool :=
  m.any (fun e => e.1 == k)

/-- The assignment `m[k] = v`: overwrites the entry of a present key, inserts a
new entry otherwise. -/
def GoMap.assign (m : GoMap) (k : String) (v : Bool) : GoMap :=
  if m.contains k then m.map (fun e => if e.1 == k then (k, v) else e)
  else m ++ [(k, v)]

/-- The built-in `len(m)`. -/
def GoMap.len (m : GoMap) : Nat := m.length

/-- The state of the loop of `RangingOverMaps`, with the bookkeeping of a run. -/
structure MapLoop where
  /-- the map `m` -/
  m : GoMap
  /-- the keys the loop has visited so far, in order -/
  visited : List String
  /-- the number of iterations whose assignment inserted a key not yet present -/
  inserts : Nat
  deriving DecidableEq, Repr

/-- The map literal of `RangingOverMaps`. -/
def RangingOverMaps.literal : GoMap := [("a", true), ("aa", true)]

/-- The loop body `m[k+k] = true` run for the key `k`. -/
def RangingOverMaps.body (st : MapLoop) (k : String) : MapLoop :=
  { m := st.m.assign (k ++ k) true,
    visited := st.visited ++ [k],
    inserts := st.inserts + (if st.m.contains (k ++ k) then 0 else 1) }

/-- The loop run along a given iteration order: `none` when the order visits a
key that is not in the map at that moment or that was visited before. -/
def RangingOverMaps.loop : MapLoop → List String → Option MapLoop
  | st, [] => some st
  | st, k :: rest =>
    if st.m.contains k ∧ k ∉ st.visited then
      RangingOverMaps.loop (RangingOverMaps.body st k) rest
    else none

/-- The function `RangingOverMaps` run along the iteration order `order`: the
loop state at the `fmt.Println(len(m))`. The order is one the language permits
when every visited key is present and unvisited at its visit and every key of the
literal has been visited at the end; otherwise the result is `none`. -/
def RangingOverMaps (order : List String) : Option MapLoop :=
  match RangingOverMaps.loop { m := RangingOverMaps.literal, visited := [], inserts := 0 } order with
  | none => none
  | some st =>
    if RangingOverMaps.literal.all (fun e => decide (e.1 ∈ st.visited)) then some st else none

/-- The value `RangingOverMaps` prints along the iteration order `order`. -/
def RangingOverMaps.printed (order : List String) : Option Nat :=
  (RangingOverMaps order).map (fun st => st.m.len)

/-! ## Channels and `select` (`BlockedChannels`, `BlockedChannels2`) -/

/-- Where the goroutine `go func() { a <- true; b <- true }()` stands: suspended
before completing its send on `a`, before completing its send on `b`, or returned. -/
inductive SenderPc where
  | sendA : SenderPc
  | sendB : SenderPc
  | returned : SenderPc
  deriving DecidableEq, Repr

/-- Where the function body stands: waiting in the `select`, or past it through
the case `<-a` or the case `<-b`. -/
inductive SelectPc where
  | atSelect : SelectPc
  | tookA : SelectPc
  | tookB : SelectPc
  deriving DecidableEq, Repr

/-- The state of a run of `BlockedChannels` or `BlockedChannels2` after the `go`
statement. The channel `a` is unbuffered, so it holds nothing between steps. -/
structure ChanState where
  sender : SenderPc
  selector : SelectPc
  /-- the values held in the buffer of channel `b` -/
  bufB : List Bool
  deriving DecidableEq, Repr

/-- The communication events of the two functions. -/
inductive ChanEvent where
  /-- the send `a <- true` meets the waiting case `<-a` -/
  | handoffA : ChanEvent
  /-- the send `b <- true` meets the waiting case `<-b` -/
  | handoffB : ChanEvent
  /-- the send `b <- true` stores its value in the buffer of `b` -/
  | storeB : ChanEvent
  /-- the case `<-b` takes a value out of the buffer of `b` -/
  | takeB : ChanEvent
  deriving DecidableEq, Repr

/-- One step of the channel semantics, for `b := make(chan bool, capB)`: an
unbuffered send completes only together with a receive; a send on a channel with
free buffer space completes alone; `none` when the event is not enabled. -/
def chanStep (capB : Nat) (s : ChanState) : ChanEvent → Option ChanState
  | ChanEvent.handoffA =>
    if s.sender = SenderPc.sendA ∧ s.selector = SelectPc.atSelect then
      some { s with sender := SenderPc.sendB, selector := SelectPc.tookA }
    else none
  | ChanEvent.handoffB =>
    if s.sender = SenderPc.sendB ∧ s.selector = SelectPc.atSelect ∧ s.bufB = [] then
      some { s with sender := SenderPc.returned, selector := SelectPc.tookB }
    else none
  | ChanEvent.storeB =>
    if s.sender = SenderPc.sendB ∧ s.bufB.length < capB then
      some { s with sender := SenderPc.returned, bufB := s.bufB ++ [true] }
    else none
  | ChanEvent.takeB =>
    if s.selector = SelectPc.atSelect ∧ s.bufB ≠ [] then
      some { s with selector := SelectPc.tookB, bufB := s.bufB.tail }
    else none

/-- The run of a sequence of events; `none` when one of them is not enabled. -/
def chanRun (capB : Nat) : ChanState → List ChanEvent → Option ChanState
  | s, [] => some s
  | s, e :: es =>
    match chanStep capB s e with
    | none => none
    | some s1 => chanRun capB s1 es

/-- The state right after the `go` statement: the goroutine is at `a <- true`,
the function body at the `select`, the buffer of `b` empty. -/
def ChanState.init : ChanState :=
  { sender := SenderPc.sendA, selector := SelectPc.atSelect, bufB := [] }

/-- A state in which no event is enabled. -/
def ChanState.stuck (capB : Nat) (s : ChanState) : Bool :=
  [ChanEvent.handoffA, ChanEvent.handoffB, ChanEvent.storeB, ChanEvent.takeB].all
    (fun e => (chanStep capB s e).isNone)

/-- The function `BlockedChannels` (`b := make(chan bool)`): the state reached by
a sequence of events. -/
def BlockedChannels (es : List ChanEvent) : Option ChanState :=
  chanRun 0 ChanState.init es

/-- The function `BlockedChannels2` (`b := make(chan bool, 1)`): the state reached
by a sequence of events. -/
def BlockedChannels2 (es : List ChanEvent) : Option ChanState :=
  chanRun 1 ChanState.init es

/-- The state in which the goroutine is suspended at `b <- true` and the function
body has left the `select` through the case `<-a`. -/
def ChanState.senderBlocked : ChanState :=
  { sender := SenderPc.sendB, selector := SelectPc.tookA, bufB := [] }

/-- The state in which the goroutine has returned, the function body has left the
`select` through the case `<-a`, and the value sent on `b` sits in its buffer. -/
def ChanState.senderReturned : ChanState :=
  { sender := SenderPc.returned, selector := SelectPc.tookA, bufB := [true] }

/-! ## Goroutines, wait groups and captured loop variables
(`RangingWithClosures2`, `RangintWithClosures3`, `RangingWithClosures4`)

The three functions share one loop, `for _, v := range xs { wg.Add(1); go ... }`
followed by `wg.Wait()`, and differ in what the spawned closure prints. A run is
an interleaving of atomic steps of the function body and of the goroutines it
has spawned. A goroutine evaluates the argument of `fmt.Println` in one step and
writes the line in another, so a value read early can be printed late.

The source does not say which version of the language it is built with, and the
scope of the loop variable `v` depends on it: one variable for the whole loop
before Go 1.22, a new variable in each iteration since. Only a closure that
refers to `v` itself can tell the two apart, so the choice is a parameter of
`RangingWithClosures2`; the other two functions only read the current value of
`v` in the function body. -/

/-- The scope of the loop variable `v`. -/
inductive LoopVar where
  /-- one variable for the whole loop (Go before 1.22) -/
  | perLoop : LoopVar
  /-- a new variable in each iteration (Go 1.22 and later) -/
  | perIteration : LoopVar
  deriving DecidableEq, Repr

/-- How the spawned closure gets at the value it prints. -/
inductive Capture where
  /-- `RangingWithClosures2`: the closure refers to the loop variable `v` -/
  | shared (lv : LoopVar) : Capture
  /-- `RangintWithClosures3`: `v` is passed as the argument `u` of the closure -/
  | param : Capture
  /-- `RangingWithClosures4`: `v := v` declares a new variable before the closure -/
  | shadow : Capture
  deriving DecidableEq, Repr

/-- The variable a spawned closure prints. -/
inductive VarRef where
  /-- the loop variable `v` shared by all iterations -/
  | loopVar : VarRef
  /-- the goroutine's own parameter `u`, holding the value it was called with -/
  | own (u : String) : VarRef
  /-- the `n`-th variable declared inside an iteration: by `v := v`, or the
  loop variable itself when each iteration has its own -/
  | cell (n : Nat) : VarRef
  deriving DecidableEq, Repr

/-- Where a spawned goroutine stands: before reading the variable it prints,
before writing the line with the value `x` it has read, before `wg.Done()`, or
returned. -/
inductive GoPc where
  | eval : GoPc
  | print (x : String) : GoPc
  | done : GoPc
  | exited : GoPc
  deriving DecidableEq, Repr

/-- A spawned goroutine. -/
structure Goroutine where
  ref : VarRef
  pc : GoPc
  deriving DecidableEq, Repr

/-- Where the function body stands; `i` is the index of the current iteration. -/
inductive MainPc where
  /-- at the loop head, about to bind `v` to element `i` or to leave the loop -/
  | next (i : Nat) : MainPc
  /-- before `wg.Add(1)` -/
  | add (i : Nat) : MainPc
  /-- before `v := v` (only in `RangingWithClosures4`) -/
  | rebind (i : Nat) : MainPc
  /-- before the `go` statement -/
  | spawn (i : Nat) : MainPc
  /-- at `wg.Wait()` -/
  | wait : MainPc
  /-- after `wg.Wait()` has returned -/
  | returned : MainPc
  deriving DecidableEq, Repr

/-- The state of a run. -/
structure World where
  main : MainPc
  /-- the current value of the loop variable `v` -/
  v : String
  /-- the variables declared inside iterations, in order of declaration -/
  cells : List String
  /-- the counter of the wait group `wg` -/
  wg : Nat
  /-- the goroutines spawned so far, in spawn order -/
  gs : List Goroutine
  /-- the lines printed so far -/
  out : List String
  deriving DecidableEq, Repr

/-- The state on entry to the function. -/
def World.init : World :=
  { main := MainPc.next 0, v := "", cells := [], wg := 0, gs := [], out := [] }

/-- The current value of the variable a closure prints. -/
def World.deref (w : World) : VarRef → String
  | VarRef.loopVar => w.v
  | VarRef.own u => u
  | VarRef.cell n => w.cells.getD n ""

/-- The variable handed to the closure by the `go` statement. -/
def captureRef (c : Capture) (w : World) : VarRef :=
  match c with
  | Capture.shared LoopVar.perLoop => VarRef.loopVar
  | Capture.shared LoopVar.perIteration => VarRef.cell (w.cells.length - 1)
  | Capture.param => VarRef.own w.v
  | Capture.shadow => VarRef.cell (w.cells.length - 1)

/-- One step of the function body; `none` when it is blocked in `wg.Wait()` or
has returned. -/
def stepMain (c : Capture) (xs : List String) (w : World) : Option World :=
  match w.main with
  | MainPc.next i =>
    match xs[i]? with
    | some x =>
      some { w with v := x,
                    cells := if c = Capture.shared LoopVar.perIteration then w.cells ++ [x]
                             else w.cells,
                    main := MainPc.add i }
    | none => some { w with main := MainPc.wait }
  | MainPc.add i =>
    some { w with wg := w.wg + 1,
                  main := if c = Capture.shadow then MainPc.rebind i else MainPc.spawn i }
  | MainPc.rebind i =>
    some { w with cells := w.cells ++ [w.v], main := MainPc.spawn i }
  | MainPc.spawn i =>
    some { w with gs := w.gs ++ [{ ref := captureRef c w, pc := GoPc.eval }],
                  main := MainPc.next (i + 1) }
  | MainPc.wait =>
    if w.wg = 0 then some { w with main := MainPc.returned } else none
  | MainPc.returned => none

/-- One step of the `n`-th spawned goroutine: the read of its variable, the
write of the line by `fmt.Println`, then `wg.Done()`; `none` when there is no
such goroutine or it has returned. -/
def stepGo (w : World) (n : Nat) : Option World :=
  match w.gs[n]? with
  | none => none
  | some g =>
    match g.pc with
    | GoPc.eval =>
      some { w with gs := w.gs.set n { g with pc := GoPc.print (w.deref g.ref) } }
    | GoPc.print x =>
      some { w with out := w.out ++ [x], gs := w.gs.set n { g with pc := GoPc.done } }
    | GoPc.done =>
      some { w with wg := w.wg - 1, gs := w.gs.set n { g with pc := GoPc.exited } }
    | GoPc.exited => none

/-- The thread a scheduler picks for the next step. -/
inductive Tid where
  | main : Tid
  | go (n : Nat) : Tid
  deriving DecidableEq, Repr

/-- One step of the thread picked by the scheduler. -/
def step (c : Capture) (xs : List String) (w : World) : Tid → Option World
  | Tid.main => stepMain c xs w
  | Tid.go n => stepGo w n

/-- The run along a schedule; `none` when the schedule picks a thread that
cannot move. -/
def run (c : Capture) (xs : List String) : World → List Tid → Option World
  | w, [] => some w
  | w, t :: ts =>
    match step c xs w t with
    | none => none
    | some w1 => run c xs w1 ts

/-- The slice literal the three loops range over. -/
def abc : List String := ["a", "b", "c"]

/-- The function `RangingWithClosures2`, for a scope `lv` of the loop variable:
the state reached along a schedule. -/
def RangingWithClosures2 (lv : LoopVar) (sched : List Tid) : Option World :=
  run (Capture.shared lv) abc World.init sched

/-- The function `RangintWithClosures3`: the state reached along a schedule. -/
def RangintWithClosures3 (sched : List Tid) : Option World :=
  run Capture.param abc World.init sched

/-- The function `RangingWithClosures4`: the state reached along a schedule. -/
def RangingWithClosures4 (sched : List Tid) : Option World :=
  run Capture.shadow abc World.init sched

/-- The schedule of `RangingWithClosures2` that runs each goroutine to completion
right after its `go` statement. -/
def eagerSchedule : List Tid :=
  [Tid.main, Tid.main, Tid.main, Tid.go 0, Tid.go 0, Tid.go 0,
   Tid.main, Tid.main, Tid.main, Tid.go 1, Tid.go 1, Tid.go 1,
   Tid.main, Tid.main, Tid.main, Tid.go 2, Tid.go 2, Tid.go 2,
   Tid.main, Tid.main]

/-- A schedule of `RangingWithClosures2` in which the second goroutine reads `v`
during the loop and prints after the first, which runs once the loop is over. -/
def staleReadSchedule : List Tid :=
  [Tid.main, Tid.main, Tid.main, Tid.main, Tid.main, Tid.main, Tid.go 1,
   Tid.main, Tid.main, Tid.main, Tid.main,
   Tid.go 0, Tid.go 0, Tid.go 1, Tid.go 2, Tid.go 2,
   Tid.go 0, Tid.go 1, Tid.go 2, Tid.main]

/-- The steps of the three goroutines when they run after the loop, the last
spawned first, followed by the return of `wg.Wait()`. -/
def lastSpawnedFirst : List Tid :=
  [Tid.go 2, Tid.go 2, Tid.go 0, Tid.go 0, Tid.go 1, Tid.go 1,
   Tid.go 1, Tid.go 0, Tid.go 2, Tid.main]

/-- A schedule of `RangingWithClosures2` and `RangintWithClosures3`: the function
body runs up to `wg.Wait()` (10 steps), then the goroutines, last spawned first. -/
def lateSchedule : List Tid :=
  List.replicate 10 Tid.main ++ lastSpawnedFirst

/-- The corresponding schedule of `RangingWithClosures4`, whose function body
takes 13 steps up to `wg.Wait()`. -/
def lateShadowSchedule : List Tid :=
  List.replicate 13 Tid.main ++ lastSpawnedFirst

/-- The final state of `RangintWithClosures3` along `lateSchedule`. -/
def lateWorld : World :=
  { main := MainPc.returned, v := "c", cells := [], wg := 0,
    gs := [{ ref := VarRef.own "a", pc := GoPc.exited },
           { ref := VarRef.own "b", pc := GoPc.exited },
           { ref := VarRef.own "c", pc := GoPc.exited }],
    out := ["c", "a", "b"] }

/-- The final state of `RangingWithClosures4` along `lateShadowSchedule`. -/
def lateShadowWorld : World :=
  { main := MainPc.returned, v := "c", cells := ["a", "b", "c"], wg := 0,
    gs := [{ ref := VarRef.cell 0, pc := GoPc.exited },
           { ref := VarRef.cell 1, pc := GoPc.exited },
           { ref := VarRef.cell 2, pc := GoPc.exited }],
    out := ["c", "a", "b"] }

/-! ### Quantities used in the invariants -/

/-- Counts a goroutine that has not returned. -/
def Goroutine.live (g : Goroutine) : Nat :=
  match g.pc with
  | GoPc.exited => 0
  | _ => 1

/-- Counts a goroutine that has written its line. -/
def Goroutine.printed (g : Goroutine) : Nat :=
  match g.pc with
  | GoPc.done => 1
  | GoPc.exited => 1
  | _ => 0

/-- The steps a goroutine still has to take. -/
def Goroutine.stepsLeft (g : Goroutine) : Nat :=
  match g.pc with
  | GoPc.eval => 3
  | GoPc.print _ => 2
  | GoPc.done => 1
  | GoPc.exited => 0

/-- The value a goroutine is still going to print, as a multiset. -/
def World.pending (w : World) (g : Goroutine) : Multiset String :=
  match g.pc with
  | GoPc.eval => {w.deref g.ref}
  | GoPc.print x => {x}
  | _ => 0

/-- The amount `wg.Add(1)` has added for a goroutine that is not yet spawned. -/
def MainPc.added : MainPc → Nat
  | MainPc.rebind _ => 1
  | MainPc.spawn _ => 1
  | _ => 0

/-- The variable declared last inside an iteration holds the current value of `v`. -/
def World.lastCellIsV (w : World) : Prop :=
  0 < w.cells.length ∧ w.cells.getD (w.cells.length - 1) "" = w.v

/-- What the position of the function body says about the rest of the state. -/
def World.pcOK (c : Capture) (xs : List String) (w : World) : MainPc → Prop
  | MainPc.next i => w.gs.length = i ∧ i ≤ xs.length
  | MainPc.add i =>
    w.gs.length = i ∧ xs[i]? = some w.v ∧
      (c = Capture.shared LoopVar.perIteration → w.lastCellIsV)
  | MainPc.rebind i => w.gs.length = i ∧ xs[i]? = some w.v ∧ c = Capture.shadow
  | MainPc.spawn i =>
    w.gs.length = i ∧ xs[i]? = some w.v ∧
      (c = Capture.shadow ∨ c = Capture.shared LoopVar.perIteration → w.lastCellIsV)
  | MainPc.wait => w.gs.length = xs.length
  | MainPc.returned => w.gs.length = xs.length ∧ (w.gs.map Goroutine.live).sum = 0

/-- The invariant common to the three functions: the wait-group counter counts
the goroutines that have not returned, the position of the function body agrees
with the goroutines spawned, and one line is printed per goroutine past its
`fmt.Println`. -/
structure World.Sound (c : Capture) (xs : List String) (w : World) : Prop where
  wg_eq : w.wg = (w.gs.map Goroutine.live).sum + w.main.added
  pc_ok : w.pcOK c xs w.main
  out_len : w.out.length = (w.gs.map Goroutine.printed).sum

/-- A variable no later step writes: a goroutine's own parameter, or an existing
variable declared inside an iteration. -/
def VarRef.stable (w : World) : VarRef → Prop
  | VarRef.loopVar => False
  | VarRef.own _ => True
  | VarRef.cell n => n < w.cells.length

/-- The invariant of the runs in which no closure refers to a variable shared by
the iterations: every goroutine prints a variable of its own, and the lines
printed, the values still to be printed and the elements not yet reached by the
loop together make up the input. -/
structure World.Isolated (xs : List String) (w : World) : Prop where
  refs : ∀ g ∈ w.gs, g.ref.stable w
  bag : (↑w.out : Multiset String) + (w.gs.map w.pending).sum + ↑(xs.drop w.gs.length)
    = (↑xs : Multiset String)

/-- The steps the function body still has to take, for an input of length `n`,
counting three more for each goroutine it is still going to spawn. -/
def MainPc.stepsLeft (c : Capture) (n : Nat) : MainPc → Nat
  | MainPc.next i => (n - i) * (if c = Capture.shadow then 7 else 6) + 2
  | MainPc.add i => (n - i) * (if c = Capture.shadow then 7 else 6) + 1
  | MainPc.rebind i => (n - i) * 7
  | MainPc.spawn i =>
    (n - i) * (if c = Capture.shadow then 7 else 6) - (if c = Capture.shadow then 1 else 0)
  | MainPc.wait => 1
  | MainPc.returned => 0

/-- The number of steps left in a run from the state `w`. -/
def World.stepsLeft (c : Capture) (xs : List String) (w : World) : Nat :=
  w.main.stepsLeft c xs.length + (w.gs.map Goroutine.stepsLeft).sum

/-! ## Theorems -/

theorem elems_set_alloc (h0 : Heap) (x y : String) (rest : List String) :
    (((h0 ++ x :: rest).set (h0.length + 0) y).drop h0.length).take (rest.length + 1)
      = y :: rest := by
  simp [List.set_append_right]

/-- C1: every `Bar` value answers `Val` with its own "Hello.", the qualified call
through the embedded `Foo` answers "Goodbye.", and `main` prints these two lines. -/
theorem C1_embedding_dispatch :
    (∀ bar : Bar, bar.Val = "Hello." ∧ bar.Foo.Val = "Goodbye.") ∧
    main = ["Hello.", "Goodbye."] :=
  ⟨fun _ => ⟨rfl, rfl⟩, rfl⟩

/-- C2: for every non-empty slice literal, the callee's write `t[0] = "Equal Pay"`
does not panic and is seen by the caller: element 0 of `s` is "Equal Pay", the
other elements of `s` are unchanged; `SlicesAreNotArrays` prints `[Equal Pay]`. -/
theorem C2_slice_write_reaches_caller (h0 : Heap) (src : List String) (hne : src ≠ []) :
    (∃ obs, SlicesAreNotArraysWith h0 src = Except.ok obs ∧
      obs.caller = "Equal Pay" :: src.tail ∧
      obs.caller[0]? = some "Equal Pay" ∧
      obs.caller.length = src.length ∧
      (∀ i, 0 < i → obs.caller[i]? = src[i]?) ∧
      obs.printed = fmtStrings ("Equal Pay" :: src.tail)) ∧
    SlicesAreNotArrays
      = Except.ok { caller := ["Equal Pay"], callee := ["Equal Pay"], printed := "[Equal Pay]" } := by
  refine ⟨?_, rfl⟩
  obtain ⟨x, rest, rfl⟩ := List.exists_cons_of_ne_nil hne
  have hel := elems_set_alloc h0 x "Equal Pay" rest
  refine ⟨{ caller := "Equal Pay" :: rest, callee := "Equal Pay" :: rest,
            printed := fmtStrings ("Equal Pay" :: rest) }, ?_, rfl, by simp, by simp, ?_, rfl⟩
  · simp only [SlicesAreNotArraysWith, Heap.makeSlice, Heap.alloc, SlicesAreNotArrays.func1,
      Slice.assign, Slice.elems, List.length_cons]
    rw [if_pos (Nat.succ_pos _)]
    simp only [hel]
  · intro i hi
    cases i with
    | zero => exact absurd hi (Nat.lt_irrefl 0)
    | succ j => rfl

theorem C2_slice_write_reaches_caller_witness :
    (∃ obs, SlicesAreNotArraysWith ["x"] ["p", "q"] = Except.ok obs ∧
      obs.caller = "Equal Pay" :: ["p", "q"].tail ∧
      obs.caller[0]? = some "Equal Pay" ∧
      obs.caller.length = ["p", "q"].length ∧
      (∀ i, 0 < i → obs.caller[i]? = ["p", "q"][i]?) ∧
      obs.printed = fmtStrings ("Equal Pay" :: ["p", "q"].tail)) ∧
    SlicesAreNotArrays
      = Except.ok { caller := ["Equal Pay"], callee := ["Equal Pay"], printed := "[Equal Pay]" } :=
  C2_slice_write_reaches_caller ["x"] ["p", "q"] (by decide)

/-- C3: for every initial element of the array `a`, the callee's write
`b[0] = "Equal Pay"` lands in the callee's copy only: the caller's `a` still holds
its initial element; `SlicesAreNotArrays2` prints `[Equal Work]`. -/
theorem C3_array_write_stays_in_copy :
    (∀ (h0 : Heap) (x : String),
      (SlicesAreNotArrays2With h0 x).caller = [x] ∧
      (SlicesAreNotArrays2With h0 x).callee = ["Equal Pay"] ∧
      (SlicesAreNotArrays2With h0 x).printed = fmtStrings [x]) ∧
    SlicesAreNotArrays2
      = { caller := ["Equal Work"], callee := ["Equal Pay"], printed := "[Equal Work]" } := by
  refine ⟨?_, rfl⟩
  intro h0 x
  have hcopy : ((h0 ++ [x]).drop h0.length).take 1 = [x] := by simp
  have hset : (h0 ++ [x] ++ [x]).set ((h0 ++ [x]).length + 0) "Equal Pay"
      = h0 ++ [x] ++ ["Equal Pay"] := by
    rw [List.set_append_right _ _ (Nat.le_add_right _ _)]
    simp
  have ha : (SlicesAreNotArrays2With h0 x).caller = [x] := by
    simp only [SlicesAreNotArrays2With, Heap.alloc, Array1.passByValue, Array1.elems,
      SlicesAreNotArrays2.func1, Array1.assign0, hcopy, hset]
    simp
  have hb : (SlicesAreNotArrays2With h0 x).callee = ["Equal Pay"] := by
    simp only [SlicesAreNotArrays2With, Heap.alloc, Array1.passByValue, Array1.elems,
      SlicesAreNotArrays2.func1, Array1.assign0, hcopy, hset]
    simp
  refine ⟨ha, hb, ?_⟩
  have hp : (SlicesAreNotArrays2With h0 x).printed
      = fmtStrings (SlicesAreNotArrays2With h0 x).caller := rfl
  rw [hp, ha]

/-- C7 as stated fails: `TypedNils` does not reach `panic`, it returns normally. -/
theorem C7_TypedNils_does_not_panic :
    ¬ (errOrNil.neNil = true) ∧ ¬ (∃ e, TypedNils = Except.error e) := by
  refine ⟨by decide, ?_⟩
  rintro ⟨e, he⟩
  have hok : TypedNils = Except.ok () := rfl
  rw [hok] at he
  cases he

/-- C7 amended: `errOrNil` is declared with the interface type `error` and holds
the nil interface, so the value `checkError` returns compares equal to nil and
`TypedNils` returns without panicking; for any content of the variable
`TypedNils` panics exactly when that content is not the nil interface, as a
wrapped nil pointer is. -/
theorem C7_TypedNils_nil_interface :
    errOrNil = GoError.nil ∧ errOrNil.neNil = false ∧ TypedNils = Except.ok () ∧
    (∀ e : GoError, TypedNilsWith e = (if e = GoError.nil then Except.ok () else Except.error e)) ∧
    (∀ ty : String, TypedNilsWith (GoError.boxed ty none) = Except.error (GoError.boxed ty none)) := by
  refine ⟨rfl, rfl, rfl, ?_, fun _ => rfl⟩
  intro e
  cases e <;> simp [TypedNilsWith, GoError.neNil]

theorem decodeRune_one (b0 : Nat) (rest : GoString) (h : b0 < 0x80) :
    decodeRune (b0 :: rest) = (b0, 1) := by
  simp only [decodeRune]
  rw [if_pos h]

theorem decodeRune_two (b0 b1 : Nat) (rest : GoString) (h0 : 0xC2 ≤ b0 ∧ b0 ≤ 0xDF)
    (h1 : 0x80 ≤ b1 ∧ b1 ≤ 0xBF) :
    decodeRune (b0 :: b1 :: rest) = (b0 % 32 * 64 + b1 % 64, 2) := by
  have hlo : secondLo b0 = 0x80 := by
    unfold secondLo
    rw [if_neg (by omega), if_neg (by omega)]
  have hhi : secondHi b0 = 0xBF := by
    unfold secondHi
    rw [if_neg (by omega), if_neg (by omega)]
  simp only [decodeRune]
  rw [if_neg (by omega), if_pos h0]
  simp only [hlo, hhi]
  rw [if_pos h1]

theorem decodeRune_three (b0 b1 b2 : Nat) (rest : GoString) (h0 : 0xE0 ≤ b0 ∧ b0 ≤ 0xEF)
    (h1 : secondLo b0 ≤ b1 ∧ b1 ≤ secondHi b0) (h2 : 0x80 ≤ b2 ∧ b2 ≤ 0xBF) :
    decodeRune (b0 :: b1 :: b2 :: rest) = (b0 % 16 * 4096 + b1 % 64 * 64 + b2 % 64, 3) := by
  have hc2 : isCont b2 = true := by
    unfold isCont
    exact decide_eq_true h2
  simp only [decodeRune]
  rw [if_neg (by omega), if_neg (by omega), if_pos h0]
  rw [if_pos ⟨h1.1, h1.2, hc2⟩]

theorem decodeRune_four (b0 b1 b2 b3 : Nat) (rest : GoString) (h0 : 0xF0 ≤ b0 ∧ b0 ≤ 0xF4)
    (h1 : secondLo b0 ≤ b1 ∧ b1 ≤ secondHi b0) (h2 : 0x80 ≤ b2 ∧ b2 ≤ 0xBF)
    (h3 : 0x80 ≤ b3 ∧ b3 ≤ 0xBF) :
    decodeRune (b0 :: b1 :: b2 :: b3 :: rest)
      = (b0 % 8 * 262144 + b1 % 64 * 4096 + b2 % 64 * 64 + b3 % 64, 4) := by
  have hc2 : isCont b2 = true := by
    unfold isCont
    exact decide_eq_true h2
  have hc3 : isCont b3 = true := by
    unfold isCont
    exact decide_eq_true h3
  simp only [decodeRune]
  rw [if_neg (by omega), if_neg (by omega), if_neg (by omega), if_pos h0]
  rw [if_pos ⟨h1.1, h1.2, hc2, hc3⟩]

theorem decodeRune_encodeRune (c : Nat) (hc : isScalar c = true) (rest : GoString) :
    decodeRune (encodeRune c ++ rest) = (c, (encodeRune c).length) := by
  simp only [isScalar, decide_eq_true_eq] at hc
  unfold encodeRune
  by_cases h1 : c < 0x80
  · rw [if_pos h1]
    exact decodeRune_one c rest h1
  · rw [if_neg h1]
    by_cases h2 : c < 0x800
    · rw [if_pos h2]
      have := decodeRune_two (0xC0 + c / 64) (0x80 + c % 64) rest (by omega) (by omega)
      rw [List.cons_append, List.cons_append, List.nil_append, this]
      refine Prod.ext ?_ rfl
      show (0xC0 + c / 64) % 32 * 64 + (0x80 + c % 64) % 64 = c
      omega
    · rw [if_neg h2]
      by_cases h3 : c < 0x10000
      · rw [if_pos h3]
        have hlo : secondLo (0xE0 + c / 4096) ≤ 0x80 + c / 64 % 64 := by
          unfold secondLo
          split_ifs <;> omega
        have hhi : 0x80 + c / 64 % 64 ≤ secondHi (0xE0 + c / 4096) := by
          unfold secondHi
          split_ifs <;> omega
        have := decodeRune_three (0xE0 + c / 4096) (0x80 + c / 64 % 64) (0x80 + c % 64) rest
          (by omega) ⟨hlo, hhi⟩ (by omega)
        rw [List.cons_append, List.cons_append, List.cons_append, List.nil_append, this]
        refine Prod.ext ?_ rfl
        show (0xE0 + c / 4096) % 16 * 4096 + (0x80 + c / 64 % 64) % 64 * 64
          + (0x80 + c % 64) % 64 = c
        omega
      · rw [if_neg h3]
        have hlo : secondLo (0xF0 + c / 262144) ≤ 0x80 + c / 4096 % 64 := by
          unfold secondLo
          split_ifs <;> omega
        have hhi : 0x80 + c / 4096 % 64 ≤ secondHi (0xF0 + c / 262144) := by
          unfold secondHi
          split_ifs <;> omega
        have := decodeRune_four (0xF0 + c / 262144) (0x80 + c / 4096 % 64)
          (0x80 + c / 64 % 64) (0x80 + c % 64) rest (by omega) ⟨hlo, hhi⟩ (by omega) (by omega)
        rw [List.cons_append, List.cons_append, List.cons_append, List.cons_append,
          List.nil_append, this]
        refine Prod.ext ?_ rfl
        show (0xF0 + c / 262144) % 8 * 262144 + (0x80 + c / 4096 % 64) % 64 * 4096
          + (0x80 + c / 64 % 64) % 64 * 64 + (0x80 + c % 64) % 64 = c
        omega

theorem encodeRune_length_pos (c : Nat) : 0 < (encodeRune c).length := by
  unfold encodeRune
  split_ifs <;> simp

theorem rangeString_loop_encode (cs : List Nat) (hcs : ∀ c ∈ cs, isScalar c = true) :
    ∀ fuel, (encodeString cs).length ≤ fuel → rangeString.loop fuel (encodeString cs) = cs := by
  induction cs with
  | nil =>
    intro fuel _
    cases fuel <;> simp [encodeString, rangeString.loop]
  | cons c cs ih =>
    intro fuel hfuel
    have hc : isScalar c = true := hcs c (List.mem_cons_self _ _)
    have hpos := encodeRune_length_pos c
    have henc : encodeString (c :: cs) = encodeRune c ++ encodeString cs := by
      simp [encodeString]
    rw [henc] at hfuel ⊢
    rw [List.length_append] at hfuel
    cases fuel with
    | zero => omega
    | succ fuel =>
      cases hb : encodeRune c with
      | nil => rw [hb] at hpos; simp at hpos
      | cons b bs =>
        have hdec := decodeRune_encodeRune c hc (encodeString cs)
        rw [hb] at hdec hfuel
        simp only [List.cons_append] at hdec ⊢
        simp only [rangeString.loop, hdec]
        rw [← List.cons_append, List.drop_left]
        rw [ih (fun x hx => hcs x (List.mem_cons_of_mem _ hx)) fuel (by simp at hfuel; omega)]

theorem rangeString_encodeString (cs : List Nat) (hcs : ∀ c ∈ cs, isScalar c = true) :
    rangeString (encodeString cs) = cs :=
  rangeString_loop_encode cs hcs _ (Nat.le_refl _)

/-- C4: `RangingOverStrings` runs its loop body 6 times over "I ♥ NY", with the
code points U+0049, U+0020, U+2665, U+0020, U+004E, U+0059 in this order, while
the text is 8 bytes long; and a `range` over the UTF-8 encoding of any sequence
of scalar values runs once per code point, yielding exactly these code points. -/
theorem C4_range_string_by_code_point :
    RangingOverStrings.length = 6 ∧
    RangingOverStrings.map (fun p => p.args)
      = [[0x49, 0x49], [0x20, 0x20], [0x2665, 0x2665], [0x20, 0x20], [0x4E, 0x4E], [0x59, 0x59]] ∧
    iLoveNY.length = 8 ∧
    iLoveNY = encodeString [0x49, 0x20, 0x2665, 0x20, 0x4E, 0x59] ∧
    (∀ cs : List Nat, (∀ c ∈ cs, isScalar c = true) →
      rangeString (encodeString cs) = cs ∧
      (RangingOverStringsOn (encodeString cs)).length = cs.length) := by
  refine ⟨by decide, by decide, by decide, by decide, ?_⟩
  intro cs hcs
  have h := rangeString_encodeString cs hcs
  refine ⟨h, ?_⟩
  simp [RangingOverStringsOn, h]

theorem C4_range_string_by_code_point_witness :
    rangeString (encodeString [0x2665, 0x1F600]) = [0x2665, 0x1F600] ∧
    (RangingOverStringsOn (encodeString [0x2665, 0x1F600])).length = 2 :=
  C4_range_string_by_code_point.2.2.2.2 [0x2665, 0x1F600] (by decide)

theorem LeakyDefers_loop_state (n : Nat) :
    ∀ st : DeferState, st.deferred = st.opened.reverse →
      (LeakyDefers.loop n st).opened.length = st.opened.length + n ∧
      (LeakyDefers.loop n st).deferred = (LeakyDefers.loop n st).opened.reverse ∧
      (LeakyDefers.loop n st).closed = st.closed := by
  induction n with
  | zero =>
    intro st h
    exact ⟨rfl, h, rfl⟩
  | succ n ih =>
    intro st h
    have hb : (LeakyDefers.body st).deferred = (LeakyDefers.body st).opened.reverse := by
      simp [LeakyDefers.body, openResource, deferClose, h]
    obtain ⟨h1, h2, h3⟩ := ih (LeakyDefers.body st) hb
    refine ⟨?_, h2, ?_⟩
    · show (LeakyDefers.loop n (LeakyDefers.body st)).opened.length = _
      rw [h1]
      simp [LeakyDefers.body, openResource, deferClose]
      omega
    · show (LeakyDefers.loop n (LeakyDefers.body st)).closed = _
      rw [h3]
      rfl

theorem LeakyDefers_loop_opened (n : Nat) :
    ∀ st : DeferState,
      (LeakyDefers.loop n st).opened
        = st.opened ++ (List.range' st.opened.length n).map someType.mk := by
  induction n with
  | zero =>
    intro st
    simp [LeakyDefers.loop]
  | succ n ih =>
    intro st
    show (LeakyDefers.loop n (LeakyDefers.body st)).opened = _
    rw [ih]
    simp [LeakyDefers.body, openResource, deferClose, List.range'_succ]

theorem LeakyDefers_loop_add (i j : Nat) (st : DeferState) :
    LeakyDefers.loop (i + j) st = LeakyDefers.loop j (LeakyDefers.loop i st) := by
  induction i generalizing st with
  | zero => simp [LeakyDefers.loop]
  | succ i ih =>
    rw [Nat.succ_add]
    exact ih (LeakyDefers.body st)

theorem runDeferred_state (ds : List someType) :
    ∀ st : DeferState,
      (runDeferred ds st).closed = st.closed ++ ds ∧
      (runDeferred ds st).deferred = [] ∧
      (runDeferred ds st).opened = st.opened := by
  induction ds with
  | nil =>
    intro st
    simp [runDeferred]
  | cons c rest ih =>
    intro st
    obtain ⟨h1, h2, h3⟩ := ih (c.Close { st with deferred := rest })
    refine ⟨?_, h2, ?_⟩
    · show (runDeferred rest (c.Close { st with deferred := rest })).closed = _
      rw [h1]
      simp [someType.Close]
    · show (runDeferred rest (c.Close { st with deferred := rest })).opened = _
      rw [h3]
      rfl

/-- C5: with the loop of `LeakyDefers` bounded to `N` iterations, after `i ≤ N`
iterations `i` resources are open, `i` `Close` calls are pending and none has run;
when the function returns exactly `N` `Close` calls run, one per opened resource,
in the reverse of the order in which the resources were opened. -/
theorem C5_leaky_defers (N i : Nat) (hi : i ≤ N) :
    (LeakyDefers.loop N DeferState.init
      = LeakyDefers.loop (N - i) (LeakyDefers.loop i DeferState.init)) ∧
    (LeakyDefers.loop i DeferState.init).opened.length = i ∧
    (LeakyDefers.loop i DeferState.init).deferred.length = i ∧
    (LeakyDefers.loop i DeferState.init).closed = [] ∧
    (LeakyDefers N).closed.length = N ∧
    (LeakyDefers N).opened.length = N ∧
    (LeakyDefers N).closed = (LeakyDefers N).opened.reverse ∧
    (LeakyDefers N).closed.Nodup ∧
    (LeakyDefers N).opened = (List.range N).map someType.mk ∧
    (LeakyDefers N).deferred = [] := by
  have hinit : DeferState.init.deferred = DeferState.init.opened.reverse := rfl
  obtain ⟨a1, a2, a3⟩ := LeakyDefers_loop_state i DeferState.init hinit
  obtain ⟨b1, b2, b3⟩ := LeakyDefers_loop_state N DeferState.init hinit
  obtain ⟨c1, c2, c3⟩ := runDeferred_state (LeakyDefers.loop N DeferState.init).deferred
    (LeakyDefers.loop N DeferState.init)
  have hclosed : (LeakyDefers N).closed = (LeakyDefers N).opened.reverse := by
    show (runDeferred _ _).closed = (runDeferred _ _).opened.reverse
    rw [c1, c3, b3, b2]
    rfl
  have hop : (LeakyDefers N).opened = (List.range N).map someType.mk := by
    show (runDeferred _ _).opened = _
    rw [c3, LeakyDefers_loop_opened, List.range_eq_range']
    rfl
  have hopen : (LeakyDefers N).opened.length = N := by
    rw [hop]
    simp
  refine ⟨?_, ?_, ?_, ?_, ?_, hopen, hclosed, ?_, hop, c2⟩
  · rw [← LeakyDefers_loop_add]
    congr 1
    omega
  · rw [a1]
    simp [DeferState.init]
  · rw [a2, List.length_reverse, a1]
    simp [DeferState.init]
  · rw [a3]
    rfl
  · rw [hclosed, List.length_reverse, hopen]
  · rw [hclosed, List.nodup_reverse, hop]
    refine List.Nodup.map ?_ (List.nodup_range N)
    intro a b hab
    exact someType.mk.inj hab

theorem C5_leaky_defers_witness :
    2 ≤ 3 ∧
    (LeakyDefers.loop 3 DeferState.init
      = LeakyDefers.loop (3 - 2) (LeakyDefers.loop 2 DeferState.init)) ∧
    (LeakyDefers.loop 2 DeferState.init).opened.length = 2 ∧
    (LeakyDefers.loop 2 DeferState.init).deferred.length = 2 ∧
    (LeakyDefers.loop 2 DeferState.init).closed = [] ∧
    (LeakyDefers 3).closed.length = 3 ∧
    (LeakyDefers 3).opened.length = 3 ∧
    (LeakyDefers 3).closed = (LeakyDefers 3).opened.reverse ∧
    (LeakyDefers 3).closed.Nodup ∧
    (LeakyDefers 3).opened = (List.range 3).map someType.mk ∧
    (LeakyDefers 3).deferred = [] :=
  ⟨by decide, C5_leaky_defers 3 2 (by decide)⟩

theorem GoMap_assign_length (m : GoMap) (k : String) (v : Bool) :
    (m.assign k v).length = m.length + (if m.contains k then 0 else 1) := by
  unfold GoMap.assign
  split_ifs <;> simp

theorem RangingOverMaps_loop_len (order : List String) :
    ∀ st st1 : MapLoop, RangingOverMaps.loop st order = some st1 →
      st1.m.length + st.inserts = st.m.length + st1.inserts ∧ st.inserts ≤ st1.inserts := by
  induction order with
  | nil =>
    intro st st1 h
    simp only [RangingOverMaps.loop, Option.some.injEq] at h
    subst h
    exact ⟨rfl, Nat.le_refl _⟩
  | cons k rest ih =>
    intro st st1 h
    simp only [RangingOverMaps.loop] at h
    split_ifs at h with hk
    obtain ⟨h1, h2⟩ := ih _ _ h
    have hlen := GoMap_assign_length st.m (k ++ k) true
    simp only [RangingOverMaps.body] at h1 h2
    rw [hlen] at h1
    constructor <;> omega

/-- C10: along every iteration order the language permits, with `k` the number of
iterations that inserted a new key, the printed `len(m)` is `2 + k` and lies in
`[2, 2 * 2^k]`; the orders `a, aa` and `a, aa, aaaa` are both permitted and print
3 and 4, so the size is not a single fixed value. -/
theorem C10_ranging_over_maps_bounds :
    (∀ (order : List String) (st : MapLoop), RangingOverMaps order = some st →
      RangingOverMaps.printed order = some st.m.len ∧
      st.m.len = 2 + st.inserts ∧
      2 ≤ st.m.len ∧ st.m.len ≤ 2 * 2 ^ st.inserts) ∧
    RangingOverMaps.printed ["a", "aa"] = some 3 ∧
    RangingOverMaps.printed ["a", "aa", "aaaa"] = some 4 ∧
    RangingOverMaps.printed ["aa", "a"] = some 3 := by
  refine ⟨?_, by decide, by decide, by decide⟩
  intro order st h
  have hp : RangingOverMaps.printed order = some st.m.len := by
    simp [RangingOverMaps.printed, h]
  unfold RangingOverMaps at h
  cases hl : RangingOverMaps.loop { m := RangingOverMaps.literal, visited := [], inserts := 0 }
      order with
  | none => simp [hl] at h
  | some st1 =>
    rw [hl] at h
    simp only at h
    split_ifs at h
    simp only [Option.some.injEq] at h
    subst h
    obtain ⟨h1, _⟩ := RangingOverMaps_loop_len order _ _ hl
    have hlit : RangingOverMaps.literal.length = 2 := rfl
    simp only [hlit] at h1
    have hpow : st1.inserts < 2 ^ st1.inserts := Nat.lt_two_pow st1.inserts
    refine ⟨hp, ?_, ?_, ?_⟩ <;> simp only [GoMap.len] <;> omega

theorem C10_ranging_over_maps_bounds_witness :
    RangingOverMaps.printed ["a", "aa", "aaaa"] = some (4 : Nat) ∧
    (4 : Nat) = 2 + 2 ∧ 2 ≤ (4 : Nat) ∧ (4 : Nat) ≤ 2 * 2 ^ 2 :=
  C10_ranging_over_maps_bounds.1 ["a", "aa", "aaaa"]
    { m := [("a", true), ("aa", true), ("aaaa", true), ("aaaaaaaa", true)],
      visited := ["a", "aa", "aaaa"], inserts := 2 } (by decide)

theorem BlockedChannels_runs (es : List ChanEvent) (s : ChanState)
    (h : BlockedChannels es = some s) :
    (es = [] ∧ s = ChanState.init) ∨
    (es = [ChanEvent.handoffA] ∧ s = ⟨SenderPc.sendB, SelectPc.tookA, []⟩) := by
  match es, h with
  | [], h =>
    simp only [BlockedChannels, chanRun, Option.some.injEq] at h
    exact Or.inl ⟨rfl, h.symm⟩
  | [e], h =>
    cases e <;> simp [BlockedChannels, chanRun, chanStep, ChanState.init] at h
    exact Or.inr ⟨rfl, h.symm⟩
  | e1 :: e2 :: rest, h =>
    cases e1 <;> cases e2 <;> simp [BlockedChannels, chanRun, chanStep, ChanState.init] at h

theorem BlockedChannels2_runs (es : List ChanEvent) (s : ChanState)
    (h : BlockedChannels2 es = some s) :
    (es = [] ∧ s = ChanState.init) ∨
    (es = [ChanEvent.handoffA] ∧ s = ⟨SenderPc.sendB, SelectPc.tookA, []⟩) ∨
    (es = [ChanEvent.handoffA, ChanEvent.storeB] ∧
      s = ⟨SenderPc.returned, SelectPc.tookA, [true]⟩) := by
  match es, h with
  | [], h =>
    simp only [BlockedChannels2, chanRun, Option.some.injEq] at h
    exact Or.inl ⟨rfl, h.symm⟩
  | [e], h =>
    cases e <;> simp [BlockedChannels2, chanRun, chanStep, ChanState.init] at h
    exact Or.inr (Or.inl ⟨rfl, h.symm⟩)
  | [e1, e2], h =>
    cases e1 <;> cases e2 <;> simp [BlockedChannels2, chanRun, chanStep, ChanState.init] at h
    exact Or.inr (Or.inr ⟨rfl, h.symm⟩)
  | e1 :: e2 :: e3 :: rest, h =>
    cases e1 <;> cases e2 <;> cases e3 <;>
      simp [BlockedChannels2, chanRun, chanStep, ChanState.init] at h

/-- C9: `BlockedChannels` runs: from its initial state the only event is the
handoff on `a`, through which the `select` receives from `a`; after it the
goroutine is suspended at `b <- true` and no event is enabled any more. In every
run the `select` never takes the case `<-b`, nothing is ever stored in or
received from `b`, and the goroutine has completed its send on `b` in no
reachable state. `BlockedChannels2` runs: after the handoff on `a` the send on
`b` stores its value in the buffer and the goroutine returns, with no receiver;
after that no event is enabled, so the value is never received. In every run the
`select` never takes the case `<-b`, every run that can move no further has the
goroutine returned with its value still in the buffer of `b`, and every run
reaches that state after at most two steps. -/
theorem C9_blocked_channels :
    (BlockedChannels [] = some ChanState.init ∧
      BlockedChannels [ChanEvent.handoffA] = some ChanState.senderBlocked ∧
      (∀ e : ChanEvent, BlockedChannels ([ChanEvent.handoffA] ++ [e]) = none) ∧
      ChanState.senderBlocked.stuck 0 = true ∧
      ∀ (es : List ChanEvent) (s : ChanState), BlockedChannels es = some s →
        s.selector ≠ SelectPc.tookB ∧ s.sender ≠ SenderPc.returned ∧ s.bufB = [] ∧
        es.length ≤ 1 ∧
        (s.stuck 0 = true → s.sender = SenderPc.sendB ∧ s.selector = SelectPc.tookA) ∧
        (s.stuck 0 = true → ∀ e : ChanEvent, BlockedChannels (es ++ [e]) = none) ∧
        (s.stuck 0 = false →
          BlockedChannels (es ++ [ChanEvent.handoffA]) = some ChanState.senderBlocked)) ∧
    (BlockedChannels2 [] = some ChanState.init ∧
      BlockedChannels2 [ChanEvent.handoffA] = some ChanState.senderBlocked ∧
      BlockedChannels2 [ChanEvent.handoffA, ChanEvent.storeB]
        = some ChanState.senderReturned ∧
      (∀ e : ChanEvent,
        BlockedChannels2 ([ChanEvent.handoffA, ChanEvent.storeB] ++ [e]) = none) ∧
      ChanState.senderReturned.stuck 1 = true ∧
      ∀ (es : List ChanEvent) (s : ChanState), BlockedChannels2 es = some s →
        s.selector ≠ SelectPc.tookB ∧ es.length ≤ 2 ∧
        (s.sender = SenderPc.returned → s.bufB = [true]) ∧
        (s.stuck 1 = true →
          s.sender = SenderPc.returned ∧ s.selector = SelectPc.tookA ∧ s.bufB = [true]) ∧
        (s.stuck 1 = true → ∀ e : ChanEvent, BlockedChannels2 (es ++ [e]) = none) ∧
        (s.stuck 1 = false →
          ∃ es1, BlockedChannels2 (es ++ es1) = some ChanState.senderReturned)) := by
  have hdead1 : ∀ e : ChanEvent, BlockedChannels ([ChanEvent.handoffA] ++ [e]) = none := by
    intro e
    cases e <;> rfl
  have hdead2 : ∀ e : ChanEvent,
      BlockedChannels2 ([ChanEvent.handoffA, ChanEvent.storeB] ++ [e]) = none := by
    intro e
    cases e <;> rfl
  refine ⟨⟨rfl, rfl, hdead1, by decide, ?_⟩, ⟨rfl, rfl, rfl, hdead2, by decide, ?_⟩⟩
  · intro es s h
    rcases BlockedChannels_runs es s h with ⟨rfl, rfl⟩ | ⟨rfl, rfl⟩
    · exact ⟨by decide, by decide, rfl, by decide, by decide,
        fun hs => absurd hs (by decide), fun _ => rfl⟩
    · exact ⟨by decide, by decide, rfl, by decide, fun _ => ⟨rfl, rfl⟩,
        fun _ => hdead1, fun hs => absurd hs (by decide)⟩
  · intro es s h
    rcases BlockedChannels2_runs es s h with ⟨rfl, rfl⟩ | ⟨rfl, rfl⟩ | ⟨rfl, rfl⟩
    · exact ⟨by decide, by decide, by decide, by decide, fun hs => absurd hs (by decide),
        fun _ => ⟨[ChanEvent.handoffA, ChanEvent.storeB], rfl⟩⟩
    · exact ⟨by decide, by decide, by decide, by decide, fun hs => absurd hs (by decide),
        fun _ => ⟨[ChanEvent.storeB], rfl⟩⟩
    · exact ⟨by decide, by decide, fun _ => rfl, fun _ => ⟨rfl, rfl, rfl⟩,
        fun _ => hdead2, fun _ => ⟨[], rfl⟩⟩

theorem C9_blocked_channels_witness :
    (BlockedChannels [ChanEvent.handoffA] = some ChanState.senderBlocked ∧
      (ChanState.senderBlocked.selector ≠ SelectPc.tookB ∧
        ChanState.senderBlocked.sender ≠ SenderPc.returned ∧
        ChanState.senderBlocked.bufB = [] ∧
        [ChanEvent.handoffA].length ≤ 1 ∧
        (ChanState.senderBlocked.stuck 0 = true →
          ChanState.senderBlocked.sender = SenderPc.sendB ∧
          ChanState.senderBlocked.selector = SelectPc.tookA) ∧
        (ChanState.senderBlocked.stuck 0 = true →
          ∀ e : ChanEvent, BlockedChannels ([ChanEvent.handoffA] ++ [e]) = none) ∧
        (ChanState.senderBlocked.stuck 0 = false →
          BlockedChannels ([ChanEvent.handoffA] ++ [ChanEvent.handoffA])
            = some ChanState.senderBlocked))) ∧
    (BlockedChannels2 [ChanEvent.handoffA, ChanEvent.storeB] = some ChanState.senderReturned ∧
      (ChanState.senderReturned.selector ≠ SelectPc.tookB ∧
        [ChanEvent.handoffA, ChanEvent.storeB].length ≤ 2 ∧
        (ChanState.senderReturned.sender = SenderPc.returned →
          ChanState.senderReturned.bufB = [true]) ∧
        (ChanState.senderReturned.stuck 1 = true →
          ChanState.senderReturned.sender = SenderPc.returned ∧
          ChanState.senderReturned.selector = SelectPc.tookA ∧
          ChanState.senderReturned.bufB = [true]) ∧
        (ChanState.senderReturned.stuck 1 = true →
          ∀ e : ChanEvent,
            BlockedChannels2 ([ChanEvent.handoffA, ChanEvent.storeB] ++ [e]) = none) ∧
        (ChanState.senderReturned.stuck 1 = false →
          ∃ es1, BlockedChannels2 ([ChanEvent.handoffA, ChanEvent.storeB] ++ es1)
            = some ChanState.senderReturned))) :=
  ⟨⟨rfl, C9_blocked_channels.1.2.2.2.2 [ChanEvent.handoffA] ChanState.senderBlocked rfl⟩,
    ⟨rfl, C9_blocked_channels.2.2.2.2.2.2 [ChanEvent.handoffA, ChanEvent.storeB]
      ChanState.senderReturned rfl⟩⟩

theorem sum_map_set {α M : Type} [AddCommMonoid M] (f : α → M) :
    ∀ (l : List α) (n : Nat) (a : α), l[n]? = some a → ∀ b : α,
      ((l.set n b).map f).sum + f a = (l.map f).sum + f b := by
  intro l
  induction l with
  | nil =>
    intro n a h
    simp at h
  | cons x l ih =>
    intro n a h b
    cases n with
    | zero =>
      simp only [List.getElem?_cons_zero, Option.some.injEq] at h
      subst h
      simp only [List.set_cons_zero, List.map_cons, List.sum_cons]
      abel
    | succ n =>
      simp only [List.getElem?_cons_succ] at h
      have := ih n a h b
      simp only [List.set_cons_succ, List.map_cons, List.sum_cons]
      rw [add_assoc, this, add_assoc]

theorem run_invariant (c : Capture) (xs : List String) (P : World → Prop)
    (hstep : ∀ w t w1, P w → step c xs w t = some w1 → P w1) :
    ∀ (sched : List Tid) (w w1 : World), P w → run c xs w sched = some w1 → P w1 := by
  intro sched
  induction sched with
  | nil =>
    intro w w1 hw h
    simp only [run, Option.some.injEq] at h
    exact h ▸ hw
  | cons t ts ih =>
    intro w w1 hw h
    simp only [run] at h
    cases hst : step c xs w t with
    | none => simp [hst] at h
    | some w2 =>
      rw [hst] at h
      exact ih w2 w1 (hstep w t w2 hw hst) h

theorem run_append (c : Capture) (xs : List String) :
    ∀ (s1 s2 : List Tid) (w : World),
      run c xs w (s1 ++ s2) = (run c xs w s1).bind (fun w1 => run c xs w1 s2) := by
  intro s1
  induction s1 with
  | nil =>
    intro s2 w
    rfl
  | cons t ts ih =>
    intro s2 w
    simp only [List.cons_append, run]
    cases step c xs w t with
    | none => rfl
    | some w2 => exact ih s2 w2

theorem Sound_init (c : Capture) (xs : List String) : World.init.Sound c xs :=
  ⟨rfl, ⟨rfl, Nat.zero_le _⟩, rfl⟩

theorem getElem?_some_lt {α : Type} (l : List α) (i : Nat) (a : α) (h : l[i]? = some a) :
    i < l.length := by
  by_contra hcon
  rw [List.getElem?_eq_none_iff.mpr (Nat.le_of_not_lt hcon)] at h
  exact absurd h (by simp)

theorem lastCellIsV_append (w : World) (x : String) :
    (0 < (w.cells ++ [x]).length) ∧
      (w.cells ++ [x]).getD ((w.cells ++ [x]).length - 1) "" = x := by
  constructor <;> simp

theorem Sound_stepMain (c : Capture) (xs : List String) (w w1 : World)
    (hw : w.Sound c xs) (h : stepMain c xs w = some w1) : w1.Sound c xs := by
  obtain ⟨hwg, hpc, hout⟩ := hw
  unfold stepMain at h
  cases hm : w.main with
  | next i =>
    rw [hm] at hpc h
    simp only [World.pcOK] at hpc
    simp only [MainPc.added, hm] at hwg
    cases hx : xs[i]? with
    | some x =>
      simp only [hx, Option.some.injEq] at h
      subst h
      refine ⟨hwg, ⟨hpc.1, hx, ?_⟩, hout⟩
      intro hc
      simp only [World.lastCellIsV, hc, if_true]
      exact lastCellIsV_append w x
    | none =>
      simp only [hx, Option.some.injEq] at h
      subst h
      have hlen : xs.length ≤ i := List.getElem?_eq_none_iff.mp hx
      refine ⟨hwg, ?_, hout⟩
      show w.gs.length = xs.length
      omega
  | add i =>
    rw [hm] at hpc h
    simp only [World.pcOK] at hpc
    simp only [MainPc.added, hm] at hwg
    simp only [Option.some.injEq] at h
    subst h
    by_cases hc : c = Capture.shadow
    · refine ⟨?_, ?_, hout⟩
      · simp only [hc, if_true, MainPc.added]
        omega
      · simp only [hc, if_true, World.pcOK]
        exact ⟨hpc.1, hpc.2.1, trivial⟩
    · refine ⟨?_, ?_, hout⟩
      · simp only [hc, if_false, MainPc.added]
        omega
      · rw [if_neg hc]
        refine ⟨hpc.1, hpc.2.1, ?_⟩
        intro hcc
        rcases hcc with hcc | hcc
        · exact absurd hcc hc
        · exact hpc.2.2 hcc
  | rebind i =>
    rw [hm] at hpc h
    simp only [World.pcOK] at hpc
    simp only [MainPc.added, hm] at hwg
    simp only [Option.some.injEq] at h
    subst h
    refine ⟨hwg, ?_, hout⟩
    exact ⟨hpc.1, hpc.2.1, fun _ => lastCellIsV_append w w.v⟩
  | spawn i =>
    rw [hm] at hpc h
    simp only [World.pcOK] at hpc
    simp only [MainPc.added, hm] at hwg
    simp only [Option.some.injEq] at h
    subst h
    have hi := getElem?_some_lt xs i w.v hpc.2.1
    refine ⟨?_, ?_, ?_⟩
    · simp only [List.map_append, List.sum_append, List.map_cons, List.map_nil, List.sum_cons,
        List.sum_nil, Goroutine.live, MainPc.added]
      omega
    · simp only [World.pcOK, List.length_append, List.length_cons, List.length_nil]
      omega
    · simp only [List.map_append, List.sum_append, List.map_cons, List.map_nil, List.sum_cons,
        List.sum_nil, Goroutine.printed]
      omega
  | wait =>
    rw [hm] at hpc h
    simp only [World.pcOK] at hpc
    simp only [MainPc.added, hm] at hwg
    by_cases h0 : w.wg = 0
    swap
    · simp [h0] at h
    simp only [h0, if_true, Option.some.injEq] at h
    subst h
    refine ⟨?_, ?_, hout⟩
    · simp only [MainPc.added]
      omega
    · simp only [World.pcOK]
      exact ⟨hpc, by omega⟩
  | returned =>
    rw [hm] at h
    simp at h

theorem pcOK_set (c : Capture) (xs : List String) (w w1 : World) (n : Nat) (g g1 : Goroutine)
    (hg : w.gs[n]? = some g) (hlive : g1.live ≤ g.live)
    (hmain : w1.main = w.main) (hv : w1.v = w.v) (hcells : w1.cells = w.cells)
    (hgs : w1.gs = w.gs.set n g1) (hpc : w.pcOK c xs w.main) : w1.pcOK c xs w1.main := by
  have hlen : w1.gs.length = w.gs.length := by rw [hgs, List.length_set]
  have hsum := sum_map_set Goroutine.live w.gs n g hg g1
  have hlast : w1.lastCellIsV = w.lastCellIsV := by
    simp only [World.lastCellIsV, hcells, hv]
  rw [hmain]
  cases hm : w.main <;> rw [hm] at hpc <;> simp only [World.pcOK] at hpc ⊢ <;>
    simp only [hlen, hv, hlast]
  · exact hpc
  · exact hpc
  · exact hpc
  · exact hpc
  · exact hpc
  · refine ⟨hpc.1, ?_⟩
    rw [hgs]
    omega

theorem Sound_stepGo (c : Capture) (xs : List String) (w w1 : World) (n : Nat)
    (hw : w.Sound c xs) (h : stepGo w n = some w1) : w1.Sound c xs := by
  obtain ⟨hwg, hpc, hout⟩ := hw
  unfold stepGo at h
  cases hg : w.gs[n]? with
  | none => simp [hg] at h
  | some g =>
    simp only [hg] at h
    have hlive := fun b => sum_map_set Goroutine.live w.gs n g hg b
    have hprinted := fun b => sum_map_set Goroutine.printed w.gs n g hg b
    have hmem : g ∈ w.gs := List.getElem?_mem hg
    have hle : g.live ≤ (w.gs.map Goroutine.live).sum :=
      List.single_le_sum (fun _ _ => Nat.zero_le _) _ (List.mem_map_of_mem _ hmem)
    cases hp : g.pc with
    | eval =>
      simp only [hp, Option.some.injEq] at h
      subst h
      have h1 := hlive { g with pc := GoPc.print (w.deref g.ref) }
      have h2 := hprinted { g with pc := GoPc.print (w.deref g.ref) }
      simp only [Goroutine.live, Goroutine.printed, hp] at h1 h2 hle
      refine ⟨?_, ?_, ?_⟩
      · show w.wg = (List.map Goroutine.live
          (w.gs.set n { g with pc := GoPc.print (w.deref g.ref) })).sum + w.main.added
        omega
      · exact pcOK_set c xs w _ n g { g with pc := GoPc.print (w.deref g.ref) } hg
          (by simp only [Goroutine.live, hp]; omega) rfl rfl rfl rfl hpc
      · show w.out.length = (List.map Goroutine.printed
          (w.gs.set n { g with pc := GoPc.print (w.deref g.ref) })).sum
        omega
    | print x =>
      simp only [hp, Option.some.injEq] at h
      subst h
      have h1 := hlive { g with pc := GoPc.done }
      have h2 := hprinted { g with pc := GoPc.done }
      simp only [Goroutine.live, Goroutine.printed, hp] at h1 h2 hle
      refine ⟨?_, ?_, ?_⟩
      · show w.wg = (List.map Goroutine.live (w.gs.set n { g with pc := GoPc.done })).sum
          + w.main.added
        omega
      · exact pcOK_set c xs w _ n g { g with pc := GoPc.done } hg
          (by simp only [Goroutine.live, hp]; omega) rfl rfl rfl rfl hpc
      · show (w.out ++ [x]).length
          = (List.map Goroutine.printed (w.gs.set n { g with pc := GoPc.done })).sum
        simp only [List.length_append, List.length_cons, List.length_nil]
        omega
    | done =>
      simp only [hp, Option.some.injEq] at h
      subst h
      have h1 := hlive { g with pc := GoPc.exited }
      have h2 := hprinted { g with pc := GoPc.exited }
      simp only [Goroutine.live, Goroutine.printed, hp] at h1 h2 hle
      refine ⟨?_, ?_, ?_⟩
      · show w.wg - 1 = (List.map Goroutine.live (w.gs.set n { g with pc := GoPc.exited })).sum
          + w.main.added
        omega
      · exact pcOK_set c xs w _ n g { g with pc := GoPc.exited } hg
          (by simp only [Goroutine.live, hp]; omega) rfl rfl rfl rfl hpc
      · show w.out.length
          = (List.map Goroutine.printed (w.gs.set n { g with pc := GoPc.exited })).sum
        omega
    | exited =>
      simp [hp] at h

theorem Sound_step (c : Capture) (xs : List String) (w : World) (t : Tid) (w1 : World)
    (hw : w.Sound c xs) (h : step c xs w t = some w1) : w1.Sound c xs := by
  cases t with
  | main => exact Sound_stepMain c xs w w1 hw h
  | go n => exact Sound_stepGo c xs w w1 n hw h

theorem deref_stable (w w1 : World) (ext : List String) (hcells : w1.cells = w.cells ++ ext)
    (r : VarRef) (hr : r.stable w) : w1.deref r = w.deref r ∧ r.stable w1 := by
  cases r with
  | loopVar => exact False.elim hr
  | own u => exact ⟨rfl, trivial⟩
  | cell n =>
    simp only [VarRef.stable] at hr
    simp only [World.deref, VarRef.stable, hcells, List.length_append]
    refine ⟨?_, by omega⟩
    simp [List.getD_eq_getElem?_getD, List.getElem?_append_left hr]

theorem Isolated_frame (xs : List String) (w w1 : World) (ext : List String)
    (hcells : w1.cells = w.cells ++ ext) (hgs : w1.gs = w.gs) (hout : w1.out = w.out)
    (hi : w.Isolated xs) : w1.Isolated xs := by
  obtain ⟨hrefs, hbag⟩ := hi
  have hpend : w1.gs.map w1.pending = w.gs.map w.pending := by
    rw [hgs]
    refine List.map_congr_left ?_
    intro g hg
    simp only [World.pending, (deref_stable w w1 ext hcells g.ref (hrefs g hg)).1]
  refine ⟨?_, ?_⟩
  · intro g hg
    rw [hgs] at hg
    exact (deref_stable w w1 ext hcells g.ref (hrefs g hg)).2
  · rw [hpend, hout, hgs]
    exact hbag

theorem Isolated_init (xs : List String) : World.init.Isolated xs := by
  refine ⟨?_, ?_⟩
  · intro g hg
    simp [World.init] at hg
  · simp [World.init]

theorem captureRef_stable (c : Capture) (hc : c ≠ Capture.shared LoopVar.perLoop) (w : World)
    (hlast : c = Capture.shadow ∨ c = Capture.shared LoopVar.perIteration → w.lastCellIsV) :
    (captureRef c w).stable w ∧ w.deref (captureRef c w) = w.v := by
  cases c with
  | shared lv =>
    cases lv with
    | perLoop => exact absurd rfl hc
    | perIteration =>
      obtain ⟨hpos, hval⟩ := hlast (Or.inr rfl)
      refine ⟨?_, hval⟩
      show w.cells.length - 1 < w.cells.length
      omega
  | param => exact ⟨trivial, rfl⟩
  | shadow =>
    obtain ⟨hpos, hval⟩ := hlast (Or.inl rfl)
    refine ⟨?_, hval⟩
    show w.cells.length - 1 < w.cells.length
    omega

theorem Isolated_stepMain (c : Capture) (xs : List String) (w w1 : World)
    (hc : c ≠ Capture.shared LoopVar.perLoop) (hs : w.Sound c xs) (hi : w.Isolated xs)
    (h : stepMain c xs w = some w1) : w1.Isolated xs := by
  have hpc := hs.pc_ok
  unfold stepMain at h
  cases hm : w.main with
  | next i =>
    rw [hm] at h
    cases hx : xs[i]? with
    | some x =>
      simp only [hx, Option.some.injEq] at h
      subst h
      by_cases hcc : c = Capture.shared LoopVar.perIteration
      · exact Isolated_frame xs w _ [x] (by simp only [hcc, if_true]) rfl rfl hi
      · exact Isolated_frame xs w _ [] (by simp only [hcc, if_false, List.append_nil]) rfl rfl hi
    | none =>
      simp only [hx, Option.some.injEq] at h
      subst h
      exact Isolated_frame xs w _ [] (by simp) rfl rfl hi
  | add i =>
    rw [hm] at h
    simp only [Option.some.injEq] at h
    subst h
    exact Isolated_frame xs w _ [] (by simp) rfl rfl hi
  | rebind i =>
    rw [hm] at h
    simp only [Option.some.injEq] at h
    subst h
    exact Isolated_frame xs w _ [w.v] rfl rfl rfl hi
  | spawn i =>
    rw [hm] at hpc h
    simp only [World.pcOK] at hpc
    simp only [Option.some.injEq] at h
    subst h
    obtain ⟨hlen, hx, hsh⟩ := hpc
    obtain ⟨hrefs, hbag⟩ := hi
    have hi := getElem?_some_lt xs i w.v hx
    have hxi : xs[i] = w.v := by
      rw [List.getElem?_eq_getElem hi] at hx
      exact Option.some.inj hx
    have hcap := captureRef_stable c hc w hsh
    refine ⟨?_, ?_⟩
    · intro g hg
      show g.ref.stable w
      rcases List.mem_append.mp hg with hg1 | hg1
      · exact hrefs g hg1
      · simp only [List.mem_singleton] at hg1
        subst hg1
        exact hcap.1
    · show (↑w.out : Multiset String)
        + ((w.gs ++ [({ ref := captureRef c w, pc := GoPc.eval } : Goroutine)]).map w.pending).sum
        + ↑(xs.drop (w.gs ++ [({ ref := captureRef c w, pc := GoPc.eval } : Goroutine)]).length)
        = ↑xs
      have hdrop : xs.drop w.gs.length = w.v :: xs.drop (w.gs.length + 1) := by
        rw [hlen, ← hxi]
        exact List.drop_eq_getElem_cons hi
      rw [hdrop] at hbag
      rw [← hbag]
      simp only [List.map_append, List.sum_append, List.map_cons, List.map_nil, List.sum_cons,
        List.sum_nil, List.length_append, List.length_cons, List.length_nil, World.pending,
        hcap.2, add_zero, zero_add, ← Multiset.cons_coe, ← Multiset.singleton_add]
      abel
  | wait =>
    rw [hm] at h
    by_cases h0 : w.wg = 0
    swap
    · simp [h0] at h
    simp only [h0, if_true, Option.some.injEq] at h
    subst h
    exact Isolated_frame xs w _ [] (by simp) rfl rfl hi
  | returned =>
    rw [hm] at h
    simp at h

theorem Isolated_stepGo (xs : List String) (w w1 : World) (n : Nat)
    (hi : w.Isolated xs) (h : stepGo w n = some w1) : w1.Isolated xs := by
  obtain ⟨hrefs, hbag⟩ := hi
  unfold stepGo at h
  cases hg : w.gs[n]? with
  | none => simp [hg] at h
  | some g =>
    simp only [hg] at h
    have hpend := fun b => sum_map_set w.pending w.gs n g hg b
    have hmem : g ∈ w.gs := List.getElem?_mem hg
    have hset : ∀ (g1 : Goroutine) (pc : GoPc), g1 ∈ w.gs.set n { g with pc := pc } →
        g1.ref.stable w := by
      intro g1 pc hg1
      rcases List.mem_or_eq_of_mem_set hg1 with hg2 | hg2
      · exact hrefs g1 hg2
      · subst hg2
        exact hrefs g hmem
    cases hp : g.pc with
    | eval =>
      simp only [hp, Option.some.injEq] at h
      subst h
      have h1 := hpend { g with pc := GoPc.print (w.deref g.ref) }
      simp only [World.pending, hp] at h1
      refine ⟨fun g1 hg1 => hset g1 _ hg1, ?_⟩
      show (↑w.out : Multiset String)
        + ((w.gs.set n { g with pc := GoPc.print (w.deref g.ref) }).map w.pending).sum
        + ↑(xs.drop (w.gs.set n { g with pc := GoPc.print (w.deref g.ref) }).length) = ↑xs
      rw [List.length_set, ← hbag, add_right_cancel h1]
    | print x =>
      simp only [hp, Option.some.injEq] at h
      subst h
      have h1 := hpend { g with pc := GoPc.done }
      simp only [World.pending, hp, add_zero] at h1
      refine ⟨fun g1 hg1 => hset g1 _ hg1, ?_⟩
      show (↑(w.out ++ [x]) : Multiset String)
        + ((w.gs.set n { g with pc := GoPc.done }).map w.pending).sum
        + ↑(xs.drop (w.gs.set n { g with pc := GoPc.done }).length) = ↑xs
      rw [List.length_set, ← hbag, ← h1, ← Multiset.coe_add, ← Multiset.coe_singleton]
      abel
    | done =>
      simp only [hp, Option.some.injEq] at h
      subst h
      have h1 := hpend { g with pc := GoPc.exited }
      simp only [World.pending, hp, add_zero] at h1
      refine ⟨fun g1 hg1 => hset g1 _ hg1, ?_⟩
      show (↑w.out : Multiset String)
        + ((w.gs.set n { g with pc := GoPc.exited }).map w.pending).sum
        + ↑(xs.drop (w.gs.set n { g with pc := GoPc.exited }).length) = ↑xs
      rw [List.length_set, ← hbag, h1]
    | exited =>
      simp [hp] at h

theorem stepsLeft_stepMain (c : Capture) (xs : List String) (w w1 : World)
    (hs : w.Sound c xs) (h : stepMain c xs w = some w1) :
    w1.stepsLeft c xs + 1 = w.stepsLeft c xs := by
  have hpc := hs.pc_ok
  unfold stepMain at h
  unfold World.stepsLeft
  cases hm : w.main with
  | next i =>
    rw [hm] at hpc h
    simp only [World.pcOK] at hpc
    cases hx : xs[i]? with
    | some x =>
      simp only [hx, Option.some.injEq] at h
      subst h
      simp only [MainPc.stepsLeft]
      omega
    | none =>
      simp only [hx, Option.some.injEq] at h
      subst h
      have hlen : xs.length ≤ i := List.getElem?_eq_none_iff.mp hx
      have h0 : xs.length - i = 0 := by omega
      simp only [MainPc.stepsLeft, h0, Nat.zero_mul]
      omega
  | add i =>
    rw [hm] at hpc h
    simp only [World.pcOK] at hpc
    simp only [Option.some.injEq] at h
    subst h
    by_cases hc : c = Capture.shadow
    · simp only [hc, if_true, MainPc.stepsLeft]
      omega
    · simp only [hc, if_false, MainPc.stepsLeft]
      omega
  | rebind i =>
    rw [hm] at hpc h
    simp only [World.pcOK] at hpc
    simp only [Option.some.injEq] at h
    subst h
    have hi := getElem?_some_lt xs i w.v hpc.2.1
    simp only [MainPc.stepsLeft, hpc.2.2, if_true]
    omega
  | spawn i =>
    rw [hm] at hpc h
    simp only [World.pcOK] at hpc
    simp only [Option.some.injEq] at h
    subst h
    have hi := getElem?_some_lt xs i w.v hpc.2.1
    simp only [MainPc.stepsLeft, List.map_append, List.sum_append, List.map_cons, List.map_nil,
      List.sum_cons, List.sum_nil, Goroutine.stepsLeft]
    have hsub : xs.length - i = (xs.length - (i + 1)) + 1 := by omega
    rw [hsub]
    split_ifs <;> omega
  | wait =>
    rw [hm] at h
    by_cases h0 : w.wg = 0
    swap
    · simp [h0] at h
    simp only [h0, if_true, Option.some.injEq] at h
    subst h
    simp only [MainPc.stepsLeft]
    omega
  | returned =>
    rw [hm] at h
    simp at h

theorem stepsLeft_stepGo (c : Capture) (xs : List String) (w w1 : World) (n : Nat)
    (h : stepGo w n = some w1) :
    w1.stepsLeft c xs + 1 = w.stepsLeft c xs := by
  unfold stepGo at h
  unfold World.stepsLeft
  cases hg : w.gs[n]? with
  | none => simp [hg] at h
  | some g =>
    simp only [hg] at h
    have hsum := fun b => sum_map_set Goroutine.stepsLeft w.gs n g hg b
    cases hp : g.pc with
    | eval =>
      simp only [hp, Option.some.injEq] at h
      subst h
      have h1 := hsum { g with pc := GoPc.print (w.deref g.ref) }
      simp only [Goroutine.stepsLeft, hp] at h1
      show w.main.stepsLeft c xs.length + (List.map Goroutine.stepsLeft
        (w.gs.set n { g with pc := GoPc.print (w.deref g.ref) })).sum + 1 = _
      omega
    | print x =>
      simp only [hp, Option.some.injEq] at h
      subst h
      have h1 := hsum { g with pc := GoPc.done }
      simp only [Goroutine.stepsLeft, hp] at h1
      show w.main.stepsLeft c xs.length
        + (List.map Goroutine.stepsLeft (w.gs.set n { g with pc := GoPc.done })).sum + 1 = _
      omega
    | done =>
      simp only [hp, Option.some.injEq] at h
      subst h
      have h1 := hsum { g with pc := GoPc.exited }
      simp only [Goroutine.stepsLeft, hp] at h1
      show w.main.stepsLeft c xs.length
        + (List.map Goroutine.stepsLeft (w.gs.set n { g with pc := GoPc.exited })).sum + 1 = _
      omega
    | exited =>
      simp [hp] at h

theorem run_length (c : Capture) (xs : List String) :
    ∀ (sched : List Tid) (w w1 : World), w.Sound c xs → run c xs w sched = some w1 →
      sched.length + w1.stepsLeft c xs = w.stepsLeft c xs := by
  intro sched
  induction sched with
  | nil =>
    intro w w1 _ h
    simp only [run, Option.some.injEq] at h
    subst h
    simp
  | cons t ts ih =>
    intro w w1 hw h
    simp only [run] at h
    cases hst : step c xs w t with
    | none => simp [hst] at h
    | some w2 =>
      rw [hst] at h
      have h2 := ih w2 w1 (Sound_step c xs w t w2 hw hst) h
      have h3 : w2.stepsLeft c xs + 1 = w.stepsLeft c xs := by
        cases t with
        | main => exact stepsLeft_stepMain c xs w w2 hw hst
        | go n => exact stepsLeft_stepGo c xs w w2 n hst
      simp only [List.length_cons]
      omega

theorem exists_live_of_sum_pos :
    ∀ gs : List Goroutine, (gs.map Goroutine.live).sum ≠ 0 →
      ∃ (n : Nat) (g : Goroutine), gs[n]? = some g ∧ g.pc ≠ GoPc.exited := by
  intro gs
  induction gs with
  | nil =>
    intro h
    simp at h
  | cons g gs ih =>
    intro h
    by_cases hg : g.pc = GoPc.exited
    · simp only [List.map_cons, List.sum_cons, Goroutine.live, hg, Nat.zero_add] at h
      obtain ⟨n, g1, h1, h2⟩ := ih h
      exact ⟨n + 1, g1, by rw [List.getElem?_cons_succ]; exact h1, h2⟩
    · exact ⟨0, g, List.getElem?_cons_zero, hg⟩

theorem all_exited_of_sum_zero :
    ∀ gs : List Goroutine, (gs.map Goroutine.live).sum = 0 →
      (∀ g ∈ gs, g.pc = GoPc.exited) ∧ (gs.map Goroutine.printed).sum = gs.length ∧
      (gs.map Goroutine.stepsLeft).sum = 0 := by
  intro gs
  induction gs with
  | nil =>
    intro _
    simp
  | cons g gs ih =>
    intro h
    simp only [List.map_cons, List.sum_cons, Nat.add_eq_zero] at h
    obtain ⟨h1, h2, h3⟩ := ih h.2
    have hg : g.pc = GoPc.exited := by
      have hl := h.1
      unfold Goroutine.live at hl
      cases hp : g.pc <;> rw [hp] at hl <;> simp at hl
    refine ⟨?_, ?_, ?_⟩
    · intro g1 hg1
      rcases List.mem_cons.mp hg1 with rfl | hg2
      · exact hg
      · exact h1 g1 hg2
    · simp only [List.map_cons, List.sum_cons, h2, List.length_cons, Goroutine.printed, hg]
      omega
    · simp only [List.map_cons, List.sum_cons, h3, Goroutine.stepsLeft, hg]

theorem progress (c : Capture) (xs : List String) (w : World) (hs : w.Sound c xs)
    (hr : w.main ≠ MainPc.returned) : ∃ t, (step c xs w t).isSome = true := by
  have hwg := hs.wg_eq
  cases hm : w.main with
  | next i =>
    refine ⟨Tid.main, ?_⟩
    simp only [step, stepMain, hm]
    cases xs[i]? <;> rfl
  | add i => exact ⟨Tid.main, by simp only [step, stepMain, hm]; rfl⟩
  | rebind i => exact ⟨Tid.main, by simp only [step, stepMain, hm]; rfl⟩
  | spawn i => exact ⟨Tid.main, by simp only [step, stepMain, hm]; rfl⟩
  | wait =>
    by_cases h0 : w.wg = 0
    · exact ⟨Tid.main, by simp only [step, stepMain, hm, h0, if_true]; rfl⟩
    · have hsum : (w.gs.map Goroutine.live).sum ≠ 0 := by
        rw [hm] at hwg
        simp only [MainPc.added] at hwg
        omega
      obtain ⟨n, g, hg, hp⟩ := exists_live_of_sum_pos w.gs hsum
      refine ⟨Tid.go n, ?_⟩
      simp only [step, stepGo, hg]
      cases hpc : g.pc with
      | eval => rfl
      | print x => rfl
      | done => rfl
      | exited => exact absurd hpc hp
  | returned => exact absurd hm hr

theorem run_snoc (c : Capture) (xs : List String) (w0 w w1 : World) (sched : List Tid)
    (t : Tid) (h : run c xs w0 sched = some w) (hst : step c xs w t = some w1) :
    run c xs w0 (sched ++ [t]) = some w1 := by
  rw [run_append, h]
  simp only [Option.some_bind, run, hst]

theorem isolated_run (c : Capture) (hc : c ≠ Capture.shared LoopVar.perLoop)
    (xs : List String) (sched : List Tid) (w : World)
    (h : run c xs World.init sched = some w) :
    (w.main = MainPc.returned → w.out.Perm xs) ∧
    (w.main ≠ MainPc.returned → ∃ t w1, run c xs World.init (sched ++ [t]) = some w1) ∧
    sched.length + w.stepsLeft c xs = World.init.stepsLeft c xs := by
  have hboth : w.Sound c xs ∧ w.Isolated xs := by
    refine run_invariant c xs (fun w => w.Sound c xs ∧ w.Isolated xs) ?_ sched _ w
      ⟨Sound_init c xs, Isolated_init xs⟩ h
    intro w0 t w1 hw hst
    refine ⟨Sound_step c xs w0 t w1 hw.1 hst, ?_⟩
    cases t with
    | main => exact Isolated_stepMain c xs w0 w1 hc hw.1 hw.2 hst
    | go n => exact Isolated_stepGo xs w0 w1 n hw.2 hst
  obtain ⟨hs, hi⟩ := hboth
  refine ⟨?_, ?_, run_length c xs sched _ w (Sound_init c xs) h⟩
  · intro hret
    have hpc := hs.pc_ok
    rw [hret] at hpc
    simp only [World.pcOK] at hpc
    obtain ⟨hex, _, _⟩ := all_exited_of_sum_zero w.gs hpc.2
    have hpend : (w.gs.map w.pending).sum = 0 := by
      refine List.sum_eq_zero ?_
      intro m hm
      obtain ⟨g, hg, rfl⟩ := List.mem_map.mp hm
      simp [World.pending, hex g hg]
    have hbag := hi.bag
    rw [hpend, hpc.1, List.drop_length, add_zero] at hbag
    simp only [Multiset.coe_nil, add_zero] at hbag
    exact Multiset.coe_eq_coe.mp hbag
  · intro hne
    obtain ⟨t, ht⟩ := progress c xs w hs hne
    cases hst : step c xs w t with
    | none => simp [hst] at ht
    | some w1 => exact ⟨t, w1, run_snoc c xs _ w w1 sched t h hst⟩

theorem abc_output (out : List String) (h : out.Perm abc) :
    out.length = 3 ∧ out.Perm ["a", "b", "c"] ∧ ∀ x ∈ ["a", "b", "c"], out.count x = 1 := by
  refine ⟨h.length_eq, h, ?_⟩
  intro x hx
  rw [h.count_eq]
  simp only [List.mem_cons, List.mem_singleton, List.not_mem_nil, or_false] at hx
  rcases hx with rfl | rfl | rfl <;> decide

/-- C6: `RangintWithClosures3` and `RangingWithClosures4` over `["a","b","c"]`
both run: started in the initial state, the schedule that lets the goroutines
run after the loop, last spawned first, ends with `wg.Wait` returned and the
lines c, a, b printed. Along every schedule, once `wg.Wait` has returned exactly
three lines are printed and they are "a", "b", "c", each exactly once; a run in
which `wg.Wait` has not returned can always be extended by a step, and a run has
at most 20 (respectively 23) steps, so `wg.Wait` does return. -/
theorem C6_copied_loop_values :
    (RangintWithClosures3 [] = some World.init ∧
      RangintWithClosures3 lateSchedule = some lateWorld ∧
      (RangintWithClosures3 lateSchedule).map (fun w => (w.main, w.out))
        = some (MainPc.returned, ["c", "a", "b"]) ∧
      ∀ (sched : List Tid) (w : World), RangintWithClosures3 sched = some w →
        (w.main = MainPc.returned →
          w.out.length = 3 ∧ w.out.Perm ["a", "b", "c"] ∧
          ∀ x ∈ ["a", "b", "c"], w.out.count x = 1) ∧
        (w.main ≠ MainPc.returned → ∃ t w1, RangintWithClosures3 (sched ++ [t]) = some w1) ∧
        sched.length ≤ 20) ∧
    (RangingWithClosures4 [] = some World.init ∧
      RangingWithClosures4 lateShadowSchedule = some lateShadowWorld ∧
      (RangingWithClosures4 lateShadowSchedule).map (fun w => (w.main, w.out))
        = some (MainPc.returned, ["c", "a", "b"]) ∧
      ∀ (sched : List Tid) (w : World), RangingWithClosures4 sched = some w →
        (w.main = MainPc.returned →
          w.out.length = 3 ∧ w.out.Perm ["a", "b", "c"] ∧
          ∀ x ∈ ["a", "b", "c"], w.out.count x = 1) ∧
        (w.main ≠ MainPc.returned → ∃ t w1, RangingWithClosures4 (sched ++ [t]) = some w1) ∧
        sched.length ≤ 23) := by
  refine ⟨⟨rfl, by decide, by decide, ?_⟩, ⟨rfl, by decide, by decide, ?_⟩⟩
  · intro sched w h
    obtain ⟨h1, h2, h3⟩ := isolated_run Capture.param (by decide) abc sched w h
    refine ⟨fun hret => abc_output w.out (h1 hret), h2, ?_⟩
    have : World.init.stepsLeft Capture.param abc = 20 := by decide
    omega
  · intro sched w h
    obtain ⟨h1, h2, h3⟩ := isolated_run Capture.shadow (by decide) abc sched w h
    refine ⟨fun hret => abc_output w.out (h1 hret), h2, ?_⟩
    have : World.init.stepsLeft Capture.shadow abc = 23 := by decide
    omega

theorem C6_copied_loop_values_witness :
    (RangintWithClosures3 lateSchedule = some lateWorld ∧
      ((lateWorld.main = MainPc.returned →
          lateWorld.out.length = 3 ∧ lateWorld.out.Perm ["a", "b", "c"] ∧
          ∀ x ∈ ["a", "b", "c"], lateWorld.out.count x = 1) ∧
        (lateWorld.main ≠ MainPc.returned →
          ∃ t w1, RangintWithClosures3 (lateSchedule ++ [t]) = some w1) ∧
        lateSchedule.length ≤ 20)) ∧
    (RangingWithClosures4 lateShadowSchedule = some lateShadowWorld ∧
      ((lateShadowWorld.main = MainPc.returned →
          lateShadowWorld.out.length = 3 ∧ lateShadowWorld.out.Perm ["a", "b", "c"] ∧
          ∀ x ∈ ["a", "b", "c"], lateShadowWorld.out.count x = 1) ∧
        (lateShadowWorld.main ≠ MainPc.returned →
          ∃ t w1, RangingWithClosures4 (lateShadowSchedule ++ [t]) = some w1) ∧
        lateShadowSchedule.length ≤ 23)) :=
  ⟨⟨by decide, C6_copied_loop_values.1.2.2.2 lateSchedule lateWorld (by decide)⟩,
    ⟨by decide,
      C6_copied_loop_values.2.2.2.2 lateShadowSchedule lateShadowWorld (by decide)⟩⟩

/-- C8 fails on the code: along the schedule that runs each goroutine right after
its `go` statement, `RangingWithClosures2` prints a, b, c under either scope of
the loop variable; with one variable per loop a goroutine that reads it during
the loop and prints later gives c, b, c, and the goroutines run after the loop
give c, c, c; with one variable per iteration the goroutines run after the loop,
last spawned first, give c, a, b. So c, c, c is one output among several, not
the output of every run. -/
theorem C8_RangingWithClosures2_outputs :
    (∀ lv : LoopVar, (RangingWithClosures2 lv eagerSchedule).map (fun w => (w.main, w.out))
      = some (MainPc.returned, ["a", "b", "c"])) ∧
    (RangingWithClosures2 LoopVar.perLoop staleReadSchedule).map (fun w => (w.main, w.out))
      = some (MainPc.returned, ["c", "b", "c"]) ∧
    (RangingWithClosures2 LoopVar.perLoop lateSchedule).map (fun w => (w.main, w.out))
      = some (MainPc.returned, ["c", "c", "c"]) ∧
    (RangingWithClosures2 LoopVar.perIteration lateSchedule).map (fun w => (w.main, w.out))
      = some (MainPc.returned, ["c", "a", "b"]) := by
  refine ⟨?_, by decide, by decide, by decide⟩
  intro lv
  cases lv <;> decide

/-- With one loop variable per iteration, `RangingWithClosures2` behaves like the
two copying functions: at the return of `wg.Wait` its output is a permutation of
the input, hence never c, c, c. -/
theorem RangingWithClosures2_perIteration (sched : List Tid) (w : World)
    (h : RangingWithClosures2 LoopVar.perIteration sched = some w)
    (hret : w.main = MainPc.returned) :
    w.out.Perm ["a", "b", "c"] ∧ w.out ≠ ["c", "c", "c"] := by
  have hperm := (isolated_run (Capture.shared LoopVar.perIteration) (by decide) abc sched w h).1
    hret
  refine ⟨hperm, ?_⟩
  intro hccc
  have hcount := hperm.count_eq "a"
  rw [hccc] at hcount
  exact absurd hcount (by decide)

end Gc2015
